import Mathlib

/-!
Verification of the x402 MCP resource-to-tool translation and payment-proxy
engine (Go package `mcp` plus its fixture loader).

The development shallowly embeds the Go sources:

* JSON values (`map[string]any` after `encoding/json` decoding) are modelled
  by the inductive `JValue`; Go byte strings (`[]byte`) by `List Nat` with
  every element below 256.
* Go's `encoding/json` marshalling of maps (canonical JSON: object keys
  sorted, standard escaping) is modelled by `serVal`, and `json.Unmarshal`
  by the recursive-descent parser `parseVal` / `jsonUnmarshal`.  Numbers are
  modelled as integers (the payloads the engine inspects only carry integer
  version numbers), which is the one deliberate restriction of the model.
* `base64.StdEncoding` / `base64.RawStdEncoding` are modelled by
  `b64encodeCodes`, `b64decodeCodes` and `b64decodeRawCodes`.
* `crypto/sha1` is modelled bit-faithfully by `sha1Bytes` over `Nat` words
  reduced modulo 2^32.
* The functions of the repository itself (`toolNameFromResource`,
  `resourceToTool`, `paginateResources`, `encodePaymentHeader`,
  `decodePaymentRequired`, `injectPaymentSignature`,
  `httpResponseToMCPResult`, ...) are translated one-to-one further below.
-/

/-- JSON value, the model of Go's `any` after JSON decoding.  Object fields
are an association list; a value decoded from a Go `map[string]any` has
unique keys, and Go marshals such maps with sorted keys (`isCanonical`). -/
inductive JValue where
  | null
  | bool (b : Bool)
  | num (n : Int)
  | str (s : String)
  | arr (items : List JValue)
  | obj (fields : List (String × JValue))

/-- Lookup in an object's field list.  Go map semantics: when a key occurs
twice (possible only for non-canonical values), the last binding wins, which
matches `encoding/json` decoding into a map. -/
def jlookup (fields : List (String × JValue)) (k : String) : Option JValue :=
  match fields with
  | [] => none
  | p :: t =>
    match jlookup t k with
    | some v => some v
    | none => if p.1 == k then some p.2 else none

/-- Key membership in an object's field list (Go `_, ok := m[k]`). -/
def containsKey (fields : List (String × JValue)) (k : String) : Bool :=
  fields.any (fun p => p.1 == k)

/-- Byte-lexicographic order on strings, the order `sort.Strings` uses on
(valid-UTF-8) Go strings; UTF-8 byte order coincides with code-point order. -/
def keyLtChars : List Char → List Char → Bool
  | _, [] => false
  | [], _ :: _ => true
  | a :: as, b :: bs =>
    if a.toNat < b.toNat then true
    else if a.toNat = b.toNat then keyLtChars as bs
    else false

/-- Order on object keys used when serializing (Go sorts map keys). -/
def keyLt (a b : String) : Bool := keyLtChars a.data b.data

/-- Insert one field into a key-sorted field list. -/
def insField (p : String × JValue) : List (String × JValue) → List (String × JValue)
  | [] => [p]
  | q :: t => if keyLt p.1 q.1 then p :: q :: t else q :: insField p t

/-- Insertion sort of object fields by key; models the sorted-key iteration
of `encoding/json` when marshalling a Go map. -/
def sortFields : List (String × JValue) → List (String × JValue)
  | [] => []
  | p :: t => insField p (sortFields t)

/-- Field keys strictly ascending. -/
def fieldsSortedB : List (String × JValue) → Bool
  | [] => true
  | [_] => true
  | p :: q :: t => keyLt p.1 q.1 && fieldsSortedB (q :: t)

mutual

/-- A JSON value is canonical when every object inside it has strictly
sorted (hence unique) keys: exactly the values that arise from Go maps. -/
def isCanonical : JValue → Bool
  | .null => true
  | .bool _ => true
  | .num _ => true
  | .str _ => true
  | .arr items => allCanonical items
  | .obj fields => fieldsSortedB fields && fieldsCanonical fields

/-- Every element of the list is canonical. -/
def allCanonical : List JValue → Bool
  | [] => true
  | v :: t => isCanonical v && allCanonical t

/-- Every field value of the list is canonical. -/
def fieldsCanonical : List (String × JValue) → Bool
  | [] => true
  | (_, v) :: t => isCanonical v && fieldsCanonical t

end

/-- UTF-8 encoding of one character (every Lean `Char` is a valid scalar). -/
def utf8Char (c : Char) : List Nat :=
  if c.toNat < 128 then [c.toNat]
  else if c.toNat < 2048 then [192 + c.toNat / 64, 128 + c.toNat % 64]
  else if c.toNat < 65536 then
    [224 + c.toNat / 4096, 128 + c.toNat / 64 % 64, 128 + c.toNat % 64]
  else
    [240 + c.toNat / 262144, 128 + c.toNat / 4096 % 64, 128 + c.toNat / 64 % 64,
     128 + c.toNat % 64]

/-- UTF-8 encoding of a character list. -/
def utf8Chars : List Char → List Nat
  | [] => []
  | c :: t => utf8Char c ++ utf8Chars t

/-- UTF-8 bytes of a string, the model of Go's `[]byte(s)`. -/
def utf8Bytes (s : String) : List Nat := utf8Chars s.data

/-- Lower-case hexadecimal digit for a value below 16 (Go `encoding/hex`). -/
def hexDigit (v : Nat) : Nat := if v < 10 then 48 + v else 87 + v

/-- JSON escaping of one character: quote, backslash and control characters
are escaped, everything else is emitted as UTF-8. -/
def escapeChar (c : Char) : List Nat :=
  if c.toNat = 34 then [92, 34]
  else if c.toNat = 92 then [92, 92]
  else if c.toNat < 32 then
    [92, 117, 48, 48, hexDigit (c.toNat / 16), hexDigit (c.toNat % 16)]
  else utf8Char c

/-- JSON escaping of a character list. -/
def escapeChars : List Char → List Nat
  | [] => []
  | c :: t => escapeChar c ++ escapeChars t

/-- Serialized JSON string literal, quotes included. -/
def serString (s : String) : List Nat := 34 :: (escapeChars s.data ++ [34])

/-- Decimal digits of a natural number, least significant first; the first
argument is recursion fuel (`n` itself is always enough). -/
def digitsRevAux : Nat → Nat → List Nat
  | 0, _ => []
  | fuel + 1, n => if n = 0 then [] else (48 + n % 10) :: digitsRevAux fuel (n / 10)

/-- Decimal digit byte string of a natural number. -/
def natDigits (n : Nat) : List Nat := if n = 0 then [48] else (digitsRevAux n n).reverse

/-- Decimal byte string of an integer (minus sign for negatives). -/
def intDigits : Int → List Nat
  | .ofNat n => natDigits n
  | .negSucc m => 45 :: natDigits (m + 1)

mutual

/-- Serialization of a JSON value in stored field order: no whitespace,
strings minimally escaped.  Go's `json.Marshal` is `jsonSerialize` below,
which first sorts object keys via `canon`. -/
def serVal : JValue → List Nat
  | .null => [110, 117, 108, 108]
  | .bool true => [116, 114, 117, 101]
  | .bool false => [102, 97, 108, 115, 101]
  | .num k => intDigits k
  | .str s => serString s
  | .arr items => 91 :: (serElems items ++ [93])
  | .obj fields => 123 :: (serFields fields ++ [125])

/-- Comma-separated serialization of array elements. -/
def serElems : List JValue → List Nat
  | [] => []
  | [v] => serVal v
  | v :: t => serVal v ++ 44 :: serElems t

/-- Comma-separated serialization of object fields. -/
def serFields : List (String × JValue) → List Nat
  | [] => []
  | [(k, v)] => serString k ++ 58 :: serVal v
  | (k, v) :: t => serString k ++ 58 :: serVal v ++ 44 :: serFields t

end

mutual

/-- Recursive key sort, the canonical shape `json.Marshal` serializes: Go
iterates map keys in sorted order at every nesting level. -/
def canon : JValue → JValue
  | .null => .null
  | .bool b => .bool b
  | .num k => .num k
  | .str s => .str s
  | .arr items => .arr (canonList items)
  | .obj fields => .obj (sortFields (canonFields fields))

/-- Canonicalize every element. -/
def canonList : List JValue → List JValue
  | [] => []
  | v :: t => canon v :: canonList t

/-- Canonicalize every field value. -/
def canonFields : List (String × JValue) → List (String × JValue)
  | [] => []
  | (k, v) :: t => (k, canon v) :: canonFields t

end

/-- Canonical JSON bytes of a value, the model of Go `json.Marshal` applied
to a decoded (`map[string]any`-shaped) value: keys sorted at every level. -/
def jsonSerialize (v : JValue) : List Nat := serVal (canon v)

/-- JSON whitespace byte. -/
def isWsB (b : Nat) : Bool := b == 32 || b == 9 || b == 10 || b == 13

/-- Drop leading JSON whitespace. -/
def skipWs : List Nat → List Nat
  | [] => []
  | b :: t => if isWsB b then skipWs t else b :: t

/-- Decimal digit byte. -/
def isDigitB (b : Nat) : Bool := 48 ≤ b && b ≤ 57

/-- Split the longest digit run off the front of the input. -/
def parseDigits : List Nat → List Nat × List Nat
  | [] => ([], [])
  | b :: t =>
    if isDigitB b then
      let p := parseDigits t
      (b :: p.1, p.2)
    else ([], b :: t)

/-- Numeric value of a digit byte run. -/
def digitsVal (ds : List Nat) : Nat := ds.foldl (fun a d => a * 10 + (d - 48)) 0

/-- After an integer literal the input may not continue with a fraction or
exponent (those JSON numbers fall outside the integer-valued model). -/
def numTailOk : List Nat → Bool
  | [] => true
  | b :: _ => !(b == 46 || b == 101 || b == 69)

/-- Input tails after which an integer literal is parsed back intact: the
serializer only ever continues a value with a comma, a closing bracket or a
closing brace (or nothing). -/
def goodTail : List Nat → Bool
  | [] => true
  | b :: _ => b == 44 || b == 93 || b == 125

/-- Parse a JSON integer literal. -/
def parseNum (bs : List Nat) : Option (JValue × List Nat) :=
  match bs with
  | [] => none
  | b :: rest =>
    if b = 45 then
      match parseDigits rest with
      | ([], _) => none
      | (ds, r) => if numTailOk r then some (.num (-(Int.ofNat (digitsVal ds))), r) else none
    else
      match parseDigits (b :: rest) with
      | ([], _) => none
      | (ds, r) => if numTailOk r then some (.num (Int.ofNat (digitsVal ds)), r) else none

/-- Hexadecimal value of one byte, if it is a hex digit. -/
def hexVal (b : Nat) : Option Nat :=
  if 48 ≤ b ∧ b ≤ 57 then some (b - 48)
  else if 97 ≤ b ∧ b ≤ 102 then some (b - 87)
  else if 65 ≤ b ∧ b ≤ 70 then some (b - 55)
  else none

/-- Character from a code point when it is a valid scalar value. -/
def mkChar (v : Nat) : Option Char :=
  if _h : v.isValidChar then some (Char.ofNat v) else none

/-- Prepend a character to a string-parse result. -/
def consChar (c : Char) : Option (List Char × List Nat) → Option (List Char × List Nat) :=
  Option.map (fun p => (c :: p.1, p.2))

/-- UTF-8 continuation byte. -/
def isContB (b : Nat) : Bool := 128 ≤ b && b < 192

/-- Decode one string character starting at byte `b` (already known not to
be the closing quote): backslash escapes, `\u` hex escapes, and UTF-8
sequences; returns the character and the remaining input. -/
def strChar (b : Nat) (rest : List Nat) : Option (Char × List Nat) :=
  if b = 92 then
    match rest with
    | [] => none
    | e :: rest2 =>
      if e = 34 then some (Char.ofNat 34, rest2)
      else if e = 92 then some (Char.ofNat 92, rest2)
      else if e = 47 then some (Char.ofNat 47, rest2)
      else if e = 98 then some (Char.ofNat 8, rest2)
      else if e = 102 then some (Char.ofNat 12, rest2)
      else if e = 110 then some (Char.ofNat 10, rest2)
      else if e = 114 then some (Char.ofNat 13, rest2)
      else if e = 116 then some (Char.ofNat 9, rest2)
      else if e = 117 then
        match rest2 with
        | h1 :: h2 :: h3 :: h4 :: rest3 =>
          match hexVal h1, hexVal h2, hexVal h3, hexVal h4 with
          | some a, some b, some c, some d =>
            match mkChar (a * 4096 + b * 256 + c * 16 + d) with
            | some ch => some (ch, rest3)
            | none => none
          | _, _, _, _ => none
        | _ => none
      else none
  else if b < 32 then none
  else if b < 128 then
    match mkChar b with
    | some ch => some (ch, rest)
    | none => none
  else if 192 ≤ b ∧ b < 224 then
    match rest with
    | b2 :: rest2 =>
      if isContB b2 then
        match mkChar ((b - 192) * 64 + (b2 - 128)) with
        | some ch => some (ch, rest2)
        | none => none
      else none
    | _ => none
  else if 224 ≤ b ∧ b < 240 then
    match rest with
    | b2 :: b3 :: rest2 =>
      if isContB b2 && isContB b3 then
        match mkChar ((b - 224) * 4096 + (b2 - 128) * 64 + (b3 - 128)) with
        | some ch => some (ch, rest2)
        | none => none
      else none
    | _ => none
  else if 240 ≤ b ∧ b < 248 then
    match rest with
    | b2 :: b3 :: b4 :: rest2 =>
      if isContB b2 && isContB b3 && isContB b4 then
        match mkChar ((b - 240) * 262144 + (b2 - 128) * 4096 + (b3 - 128) * 64 + (b4 - 128)) with
        | some ch => some (ch, rest2)
        | none => none
      else none
    | _ => none
  else none

/-- Parse the body of a JSON string after the opening quote, up to the
closing quote.  Fuel counts characters; the caller supplies the input
length, which always suffices. -/
def parseStrBody : Nat → List Nat → Option (List Char × List Nat)
  | 0, _ => none
  | fuel + 1, bs =>
    match bs with
    | [] => none
    | b :: rest =>
      if b = 34 then some ([], rest)
      else
        match strChar b rest with
        | some (c, rest2) => consChar c (parseStrBody fuel rest2)
        | none => none

/-- Parse a JSON string body, producing a `String`. -/
def parseStr (bs : List Nat) : Option (String × List Nat) :=
  (parseStrBody (bs.length + 1) bs).map (fun p => (String.mk p.1, p.2))

mutual

/-- Recursive-descent JSON parser (model of `json.Unmarshal` into `any`).
Fuel decreases by one on each nested value; the input length suffices. -/
def parseVal : Nat → List Nat → Option (JValue × List Nat)
  | 0, _ => none
  | fuel + 1, bs0 =>
    match skipWs bs0 with
    | [] => none
    | b :: rest =>
      if b = 110 then
        match rest with
        | 117 :: 108 :: 108 :: r => some (.null, r)
        | _ => none
      else if b = 116 then
        match rest with
        | 114 :: 117 :: 101 :: r => some (.bool true, r)
        | _ => none
      else if b = 102 then
        match rest with
        | 97 :: 108 :: 115 :: 101 :: r => some (.bool false, r)
        | _ => none
      else if b = 34 then (parseStr rest).map (fun p => (.str p.1, p.2))
      else if b = 91 then
        let r1 := skipWs rest
        if r1.head? = some 93 then some (.arr [], r1.tail)
        else (parseElems fuel r1).map (fun p => (.arr p.1, p.2))
      else if b = 123 then
        let r1 := skipWs rest
        if r1.head? = some 125 then some (.obj [], r1.tail)
        else (parseFields fuel r1).map (fun p => (.obj p.1, p.2))
      else parseNum (b :: rest)

/-- Parse one or more comma-separated array elements and the closing
bracket. -/
def parseElems : Nat → List Nat → Option (List JValue × List Nat)
  | 0, _ => none
  | fuel + 1, bs =>
    match parseVal fuel bs with
    | none => none
    | some (v, rest) =>
      match skipWs rest with
      | 44 :: r2 => (parseElems fuel r2).map (fun p => (v :: p.1, p.2))
      | 93 :: r2 => some ([v], r2)
      | _ => none

/-- Parse one or more comma-separated object fields and the closing
brace. -/
def parseFields : Nat → List Nat → Option (List (String × JValue) × List Nat)
  | 0, _ => none
  | fuel + 1, bs =>
    match skipWs bs with
    | 34 :: rest =>
      match parseStr rest with
      | none => none
      | some (k, r1) =>
        match skipWs r1 with
        | 58 :: r2 =>
          match parseVal fuel r2 with
          | none => none
          | some (v, r3) =>
            match skipWs r3 with
            | 44 :: r4 => (parseFields fuel r4).map (fun p => ((k, v) :: p.1, p.2))
            | 125 :: r4 => some ([(k, v)], r4)
            | _ => none
        | _ => none
    | _ => none

end

/-- Model of `json.Unmarshal` on a whole byte slice: one value, then only
trailing whitespace. -/
def jsonUnmarshal (bs : List Nat) : Option JValue :=
  match parseVal (bs.length + 1) bs with
  | some (v, rest) => if skipWs rest = [] then some v else none
  | none => none

/-- Model of `json.Unmarshal` into `map[string]any`: the document must be an
object. -/
def jsonUnmarshalObj (bs : List Nat) : Option (List (String × JValue)) :=
  match jsonUnmarshal bs with
  | some (.obj fs) => some fs
  | _ => none

/-- Base64 alphabet character (code) for a 6-bit value. -/
def b64c (i : Nat) : Nat :=
  if i < 26 then 65 + i
  else if i < 52 then 71 + i
  else if i < 62 then i - 4
  else if i = 62 then 43
  else 47

/-- Index of a base64 alphabet character, if any. -/
def b64v (b : Nat) : Option Nat :=
  if 65 ≤ b ∧ b ≤ 90 then some (b - 65)
  else if 97 ≤ b ∧ b ≤ 122 then some (b - 71)
  else if 48 ≤ b ∧ b ≤ 57 then some (b + 4)
  else if b = 43 then some 62
  else if b = 47 then some 63
  else none

/-- Standard (padded) base64 encoding of a byte list to character codes, the
model of Go `base64.StdEncoding.EncodeToString`. -/
def b64encodeCodes : List Nat → List Nat
  | [] => []
  | [b1] => [b64c (b1 / 4), b64c (b1 % 4 * 16), 61, 61]
  | [b1, b2] => [b64c (b1 / 4), b64c (b1 % 4 * 16 + b2 / 16), b64c (b2 % 16 * 4), 61]
  | b1 :: b2 :: b3 :: rest =>
    b64c (b1 / 4) :: b64c (b1 % 4 * 16 + b2 / 16) :: b64c (b2 % 16 * 4 + b3 / 64) ::
      b64c (b3 % 64) :: b64encodeCodes rest

/-- Decode one final base64 quad of two data characters (four-character
group ending in double padding). -/
def b64quad2 (c1 c2 : Nat) : Option (List Nat) :=
  match b64v c1, b64v c2 with
  | some v1, some v2 => some [v1 * 4 + v2 / 16]
  | _, _ => none

/-- Decode one final base64 quad of three data characters. -/
def b64quad3 (c1 c2 c3 : Nat) : Option (List Nat) :=
  match b64v c1, b64v c2, b64v c3 with
  | some v1, some v2, some v3 => some [v1 * 4 + v2 / 16, v2 % 16 * 16 + v3 / 4]
  | _, _, _ => none

/-- Decode one full base64 quad into three bytes. -/
def b64quad4 (c1 c2 c3 c4 : Nat) : Option (List Nat) :=
  match b64v c1, b64v c2, b64v c3, b64v c4 with
  | some v1, some v2, some v3, some v4 =>
    some [v1 * 4 + v2 / 16, v2 % 16 * 16 + v3 / 4, v3 % 4 * 64 + v4]
  | _, _, _, _ => none

/-- Standard (padded) base64 decoding, Go `base64.StdEncoding.DecodeString`:
length must be a multiple of four, padding only in the final group. -/
def b64decodeCodes : List Nat → Option (List Nat)
  | [] => some []
  | c1 :: c2 :: c3 :: c4 :: rest =>
    if c3 = 61 ∧ c4 = 61 ∧ rest = [] then b64quad2 c1 c2
    else if c4 = 61 ∧ rest = [] then b64quad3 c1 c2 c3
    else
      match b64quad4 c1 c2 c3 c4, b64decodeCodes rest with
      | some bs, some tail => some (bs ++ tail)
      | _, _ => none
  | _ => none

/-- Unpadded base64 decoding, Go `base64.RawStdEncoding.DecodeString`: the
final group may hold two or three characters. -/
def b64decodeRawCodes : List Nat → Option (List Nat)
  | [] => some []
  | [c1, c2] => b64quad2 c1 c2
  | [c1, c2, c3] => b64quad3 c1 c2 c3
  | c1 :: c2 :: c3 :: c4 :: rest =>
    match b64quad4 c1 c2 c3 c4, b64decodeRawCodes rest with
    | some bs, some tail => some (bs ++ tail)
    | _, _ => none
  | _ => none

/-- Character codes of a string (all our header strings are ASCII). -/
def strCodes (s : String) : List Nat := s.data.map Char.toNat

/-- String from character codes. -/
def codesToStr (cs : List Nat) : String := String.mk (cs.map Char.ofNat)

/-- Go `base64.StdEncoding.EncodeToString`. -/
def b64encodeStr (bs : List Nat) : String := codesToStr (b64encodeCodes bs)

/-- Go `base64.StdEncoding.DecodeString`. -/
def b64decodeStd (s : String) : Option (List Nat) := b64decodeCodes (strCodes s)

/-- Go `base64.RawStdEncoding.DecodeString`. -/
def b64decodeRawStd (s : String) : Option (List Nat) := b64decodeRawCodes (strCodes s)

/-- Left rotation of a 32-bit word represented as a `Nat` below 2^32. -/
def rotl32 (x n : Nat) : Nat := (x * 2 ^ n + x / 2 ^ (32 - n)) % 4294967296

/-- Big-endian bytes of a 32-bit word. -/
def be32 (w : Nat) : List Nat := [w / 16777216 % 256, w / 65536 % 256, w / 256 % 256, w % 256]

/-- Big-endian bytes of a 64-bit length field. -/
def be64 (n : Nat) : List Nat :=
  [n / 72057594037927936 % 256, n / 281474976710656 % 256, n / 1099511627776 % 256,
   n / 4294967296 % 256, n / 16777216 % 256, n / 65536 % 256, n / 256 % 256, n % 256]

/-- Group a byte list into big-endian 32-bit words (four bytes each). -/
def bytesToWords : List Nat → List Nat
  | b1 :: b2 :: b3 :: b4 :: rest => (b1 * 16777216 + b2 * 65536 + b3 * 256 + b4) :: bytesToWords rest
  | _ => []

/-- One schedule-extension word from the current schedule tail. -/
def sha1NextWord (ws : List Nat) : Nat :=
  rotl32 ((((ws.getD (ws.length - 3) 0) ^^^ (ws.getD (ws.length - 8) 0)) ^^^
    (ws.getD (ws.length - 14) 0)) ^^^ (ws.getD (ws.length - 16) 0)) 1

/-- Extend the message schedule by `n` words. -/
def sha1Extend : Nat → List Nat → List Nat
  | 0, ws => ws
  | n + 1, ws => sha1Extend n (ws ++ [sha1NextWord ws])

/-- One SHA-1 round: state is `(a, b, c, d, e)`, `i` the round index, `w`
the schedule word. -/
def sha1Round (i w : Nat) : Nat × Nat × Nat × Nat × Nat → Nat × Nat × Nat × Nat × Nat :=
  fun (a, b, c, d, e) =>
    let f :=
      if i < 20 then (b &&& c) ||| ((4294967295 - b) &&& d)
      else if i < 40 then (b ^^^ c) ^^^ d
      else if i < 60 then ((b &&& c) ||| (b &&& d)) ||| (c &&& d)
      else (b ^^^ c) ^^^ d
    let k :=
      if i < 20 then 1518500249
      else if i < 40 then 1859775393
      else if i < 60 then 2400959708
      else 3395469782
    let temp := (rotl32 a 5 + f + e + k + w) % 4294967296
    (temp, a, rotl32 b 30, c, d)

/-- Run the 80 rounds over the schedule words. -/
def sha1Rounds : Nat → List Nat → Nat × Nat × Nat × Nat × Nat → Nat × Nat × Nat × Nat × Nat
  | _, [], st => st
  | i, w :: rest, st => sha1Rounds (i + 1) rest (sha1Round i w st)

/-- Compress one 64-byte chunk into the running hash state. -/
def sha1Chunk (h : Nat × Nat × Nat × Nat × Nat) (chunk : List Nat) : Nat × Nat × Nat × Nat × Nat :=
  let ws := sha1Extend 64 (bytesToWords chunk)
  let (h0, h1, h2, h3, h4) := h
  let (a, b, c, d, e) := sha1Rounds 0 ws (h0, h1, h2, h3, h4)
  ((h0 + a) % 4294967296, (h1 + b) % 4294967296, (h2 + c) % 4294967296,
   (h3 + d) % 4294967296, (h4 + e) % 4294967296)

/-- Fold the compression function over the 64-byte chunks; fuel bounds the
chunk count. -/
def sha1Blocks : Nat → Nat × Nat × Nat × Nat × Nat → List Nat → Nat × Nat × Nat × Nat × Nat
  | 0, h, _ => h
  | _ + 1, h, [] => h
  | fuel + 1, h, bs => sha1Blocks fuel (sha1Chunk h (bs.take 64)) (bs.drop 64)

/-- SHA-1 digest (20 bytes) of a byte list, the model of `sha1.Sum`. -/
def sha1Bytes (msg : List Nat) : List Nat :=
  let l := msg.length
  let padded := msg ++ 128 :: (List.replicate ((119 - l % 64) % 64) 0 ++ be64 (8 * l))
  let h := sha1Blocks (padded.length / 64 + 1)
    (1732584193, 4023233417, 2562383102, 271733878, 3285377520) padded
  be32 h.1 ++ be32 h.2.1 ++ be32 h.2.2.1 ++ be32 h.2.2.2.1 ++ be32 h.2.2.2.2

/-- Lower-case hex character codes of a byte list (Go
`hex.EncodeToString`). -/
def hexCodes : List Nat → List Nat
  | [] => []
  | b :: t => hexDigit (b / 16) :: hexDigit (b % 16) :: hexCodes t

/-- Lower-case hex string of a byte list. -/
def hexStr (bs : List Nat) : String := codesToStr (hexCodes bs)

/-- ASCII lower-casing of one character, the model of `strings.ToLower` on
the ASCII strings this engine handles. -/
def lowerChar (c : Char) : Char :=
  if 65 ≤ c.toNat ∧ c.toNat ≤ 90 then Char.ofNat (c.toNat + 32) else c

/-- ASCII upper-casing of one character (`strings.ToUpper`). -/
def upperChar (c : Char) : Char :=
  if 97 ≤ c.toNat ∧ c.toNat ≤ 122 then Char.ofNat (c.toNat - 32) else c

/-- Model of Go `strings.ToLower`. -/
def goToLower (s : String) : String := String.mk (s.data.map lowerChar)

/-- Model of Go `strings.ToUpper`. -/
def goToUpper (s : String) : String := String.mk (s.data.map upperChar)

/-- ASCII whitespace, the characters `strings.TrimSpace` trims here. -/
def isSpaceChar (c : Char) : Bool := c.toNat = 32 || (9 ≤ c.toNat && c.toNat ≤ 13)

/-- Drop leading whitespace characters. -/
def dropSpaces : List Char → List Char
  | [] => []
  | c :: t => if isSpaceChar c then dropSpaces t else c :: t

/-- Model of Go `strings.TrimSpace`. -/
def trimSpace (s : String) : String :=
  String.mk ((dropSpaces ((dropSpaces s.data).reverse)).reverse)

/-- Per-character sanitation step of `sanitizeToolName` (transforms.go):
keep `a-z` and `0-9`, lower-case `A-Z`, replace everything else by `_`. -/
def sanitizeChar (c : Char) : Char :=
  if 97 ≤ c.toNat ∧ c.toNat ≤ 122 then c
  else if 65 ≤ c.toNat ∧ c.toNat ≤ 90 then Char.ofNat (c.toNat + 32)
  else if 48 ≤ c.toNat ∧ c.toNat ≤ 57 then c
  else Char.ofNat 95

/-- Drop leading underscores. -/
def dropUnderscores : List Char → List Char
  | [] => []
  | c :: t => if c.toNat = 95 then dropUnderscores t else c :: t

/-- Model of `sanitizeToolName` (transforms.go): sanitize every rune, trim
leading and trailing underscores, fall back to the literal string
`resource` when empty. -/
def sanitizeToolName (value : String) : String :=
  let mapped := value.data.map sanitizeChar
  let trimmed := (dropUnderscores ((dropUnderscores mapped).reverse)).reverse
  if trimmed.isEmpty then "resource" else String.mk trimmed

/-- Model of `toolNameFromResource` (transforms.go): compose the fixed
`x402_` tag, the sanitized lower-cased method (plus underscore) when a
method is present, the sanitized resource URL, and the hex encoding of the
first four bytes of the SHA-1 digest of `method ++ pad ++ resource` with a
colon in between. -/
def toolNameFromResource (resource method : String) : String :=
  let sanitized := sanitizeToolName resource
  let methodPart := if method = "" then "" else sanitizeToolName (goToLower method) ++ "_"
  let hash := sha1Bytes (utf8Bytes (method ++ ":" ++ resource))
  "x402_" ++ methodPart ++ sanitized ++ "_" ++ hexStr (hash.take 4)

/-- Model of the Go struct `X402PaymentRequirements` (types.go of the `mcp`
package): all fields carry the `omitempty` JSON tag.  `extra` and
`outputSchema` are `map[string]any` fields, modelled as field lists. -/
structure X402PaymentRequirements where
  asset : String := ""
  description : String := ""
  extra : List (String × JValue) := []
  maxAmountRequired : String := ""
  maxTimeoutSeconds : Int := 0
  mimeType : String := ""
  network : String := ""
  outputSchema : List (String × JValue) := []
  payTo : String := ""
  resource : String := ""
  scheme : String := ""

/-- JSON object obtained by `json.Marshal`-ing one requirement and decoding
it back into a `map[string]any` (the round trip the Go helpers perform):
`omitempty` drops zero-valued fields. -/
def reqFields (r : X402PaymentRequirements) : List (String × JValue) :=
  (if r.asset = "" then [] else [("asset", .str r.asset)]) ++
  (if r.description = "" then [] else [("description", .str r.description)]) ++
  (if r.extra.isEmpty then [] else [("extra", .obj r.extra)]) ++
  (if r.maxAmountRequired = "" then [] else [("maxAmountRequired", .str r.maxAmountRequired)]) ++
  (if r.maxTimeoutSeconds = 0 then [] else [("maxTimeoutSeconds", .num r.maxTimeoutSeconds)]) ++
  (if r.mimeType = "" then [] else [("mimeType", .str r.mimeType)]) ++
  (if r.network = "" then [] else [("network", .str r.network)]) ++
  (if r.outputSchema.isEmpty then [] else [("outputSchema", .obj r.outputSchema)]) ++
  (if r.payTo = "" then [] else [("payTo", .str r.payTo)]) ++
  (if r.resource = "" then [] else [("resource", .str r.resource)]) ++
  (if r.scheme = "" then [] else [("scheme", .str r.scheme)])

/-- Model of the Go struct `X402DiscoveryResource`.  The `lastUpdated`
timestamp is opaque to every function verified here. -/
structure X402DiscoveryResource where
  accepts : Option (List X402PaymentRequirements) := none
  lastUpdated : String := ""
  resource : String := ""
  type : String := ""
  x402Version : Int := 0
  metadata : Option (List (String × JValue)) := none

/-- Model of `extractMetadataInput` (transforms.go): the `input` entry of
the resource metadata, when it is an object. -/
def extractMetadataInput (r : X402DiscoveryResource) : Option (List (String × JValue)) :=
  match r.metadata with
  | none => none
  | some m =>
    match jlookup m "input" with
    | some (.obj i) => some i
    | _ => none

/-- Description of one requirement as read from its decoded map (absent or
non-string entries read as the empty string, as the Go type assertion
does). -/
def reqDecodedDesc (r : X402PaymentRequirements) : String :=
  match jlookup (reqFields r) "description" with
  | some (.str d) => d
  | _ => ""

/-- Input descriptor of one requirement: `decoded["outputSchema"]["input"]`
when both are objects. -/
def reqDecodedInput (r : X402PaymentRequirements) : Option (List (String × JValue)) :=
  match jlookup (reqFields r) "outputSchema" with
  | some (.obj os) =>
    match jlookup os "input" with
    | some (.obj i) => some i
    | _ => none
  | _ => none

/-- Loop body of `extractAcceptsMetadata` (transforms.go): return the
description and input of the first requirement carrying a non-empty
description or an input object. -/
def extractAcceptsLoop : List X402PaymentRequirements → String × Option (List (String × JValue))
  | [] => ("", none)
  | r :: t =>
    let desc := reqDecodedDesc r
    let input := reqDecodedInput r
    if desc ≠ "" ∨ input.isSome then (desc, input) else extractAcceptsLoop t

/-- Model of `extractAcceptsMetadata` (transforms.go). -/
def extractAcceptsMetadata (r : X402DiscoveryResource) : String × Option (List (String × JValue)) :=
  match r.accepts with
  | none => ("", none)
  | some reqs => extractAcceptsLoop reqs

/-- Model of `methodFromInput` (transforms.go): upper-cased `method` entry
of the input descriptor when it is a non-empty string. -/
def methodFromInput (input : Option (List (String × JValue))) : String :=
  match input with
  | none => ""
  | some i =>
    match jlookup i "method" with
    | some (.str m) => if m = "" then "" else goToUpper m
    | _ => ""

/-- Rendering of an `any` value by Go's `fmt.Sprint` as it is used for
schema property descriptions.  Only string payloads occur in practice; the
composite cases are an approximation (no verified claim inspects them). -/
def goSprint : JValue → String
  | .null => "<nil>"
  | .bool true => "true"
  | .bool false => "false"
  | .num k => codesToStr (intDigits k)
  | .str s => s
  | .arr _ => "[...]"
  | .obj _ => "map[...]"

/-- Property list for one `query`/`headers` sub-schema entry. -/
def schemaProp (v : JValue) : JValue :=
  .obj ([("type", .str "string")] ++
    (match v with
     | .null => []
     | w => [("description", .str (goSprint w))]))

/-- Model of `defaultProxyToolSchema` (transforms.go).  The Go function
assembles nested `map[string]any` values; object field order below is a
fixed representative of those unordered maps. -/
def defaultProxyToolSchema (r : X402DiscoveryResource) (input : Option (List (String × JValue))) : JValue :=
  let queryPart : List (String × JValue) :=
    match input with
    | some i =>
      match jlookup i "queryParams" with
      | some (.obj qp) =>
        if qp.isEmpty then []
        else
          [("query", .obj [("additionalProperties", .bool false),
             ("description", .str "Query parameters to include on the request."),
             ("properties", .obj (qp.map (fun p => (p.1, schemaProp p.2)))),
             ("type", .str "object")])]
      | _ => []
    | none => []
  let headersPart : List (String × JValue) :=
    match input with
    | some i =>
      match jlookup i "headers" with
      | some (.obj hs) =>
        if hs.isEmpty then []
        else
          [("headers", .obj [("additionalProperties", .bool false),
             ("description", .str "Additional headers to include on the request."),
             ("properties", .obj (hs.map (fun p => (p.1, schemaProp p.2)))),
             ("type", .str "object")])]
      | _ => []
    | none => []
  let bodyPart : List (String × JValue) :=
    match input with
    | some i =>
      if containsKey i "body" then
        [("body", .obj [("description", .str "JSON body to include on the request.")])]
      else []
    | none => []
  let parametersProps := queryPart ++ headersPart ++ bodyPart
  let descPart : List (String × JValue) :=
    if methodFromInput input = "" then []
    else [("description", .str ("HTTP " ++ goToUpper (methodFromInput input) ++ " to " ++ r.resource))]
  let requiredPart : List (String × JValue) :=
    if parametersProps.isEmpty then [] else [("required", .arr [.str "parameters"])]
  .obj (descPart ++
    [("properties", .obj [("parameters", .obj [("properties", .obj parametersProps), ("type", .str "object")])]),
     ("type", .str "object")] ++ requiredPart)

/-- Model of `findMimeType` (transforms.go): the first requirement whose
decoded map carries a non-empty `mimeType` string. -/
def findMimeType : List X402PaymentRequirements → String
  | [] => ""
  | r :: t =>
    match jlookup (reqFields r) "mimeType" with
    | some (.str m) => if m ≠ "" then m else findMimeType t
    | _ => findMimeType t

/-- Pricing entry for one requirement, read from its decoded map; absent
entries become Go `nil` (JSON null). -/
def pricingAccepts (r : X402PaymentRequirements) : JValue :=
  .obj [("amount", (jlookup (reqFields r) "maxAmountRequired").getD .null),
        ("asset", (jlookup (reqFields r) "asset").getD .null),
        ("extra", (jlookup (reqFields r) "extra").getD .null),
        ("maxTimeoutSeconds", (jlookup (reqFields r) "maxTimeoutSeconds").getD .null),
        ("network", (jlookup (reqFields r) "network").getD .null),
        ("payTo", (jlookup (reqFields r) "payTo").getD .null),
        ("scheme", (jlookup (reqFields r) "scheme").getD .null)]

/-- Model of `buildPricingMeta` (transforms.go). -/
def buildPricingMeta (r : X402DiscoveryResource) (description toolName : String) : Option (List (String × JValue)) :=
  match r.accepts with
  | none => none
  | some reqs =>
    if reqs.isEmpty then none
    else
      let acceptsList := reqs.map pricingAccepts
      let mime := findMimeType reqs
      let resourceMeta : List (String × JValue) :=
        [("description", .str description)] ++
        (if mime = "" then [] else [("mimeType", .str mime)]) ++
        [("url", .str ("mcp://tool/" ++ toolName))]
      some [("x402/payment-required",
        .obj [("accepts", .arr acceptsList), ("resource", .obj resourceMeta),
              ("x402Version", .num r.x402Version)])]

/-- Model of the `*mcp.Tool` fields populated by `resourceToTool`. -/
structure MCPTool where
  name : String
  description : String
  inputSchema : JValue
  meta : List (String × JValue)

/-- Model of `resourceToTool` (transforms.go): `none` exactly when the
lower-cased resource type differs from `http`. -/
def resourceToTool (r : X402DiscoveryResource) : Option MCPTool :=
  if goToLower r.type ≠ "http" then none
  else
    let pair := extractAcceptsMetadata r
    let acceptsDesc := pair.1
    let input := pair.2
    let baseDesc := "Proxy call to " ++ r.resource
    let chosen :=
      if acceptsDesc ≠ "" then acceptsDesc
      else
        match r.metadata with
        | some m =>
          match jlookup m "description" with
          | some (.str d) => if d ≠ "" then d else baseDesc
          | _ => baseDesc
        | none => baseDesc
    let method :=
      if methodFromInput input = "" then methodFromInput (extractMetadataInput r)
      else methodFromInput input
    let description := trimSpace chosen ++ " Use proxy_tool_call with payment to execute."
    let toolName := toolNameFromResource r.resource method
    let meta0 := (buildPricingMeta r description toolName).getD []
    some { name := toolName, description := description,
           inputSchema := defaultProxyToolSchema r input,
           meta := meta0 ++ [("x402/call-with", .obj [("tool", .str "proxy_tool_call")])] }

/-- Model of `findResourceForToolName` (transforms.go): scan the catalog,
skip resources that synthesize no tool, and return the first resource whose
recomputed tool name matches. -/
def findResourceForToolName (items : List X402DiscoveryResource) (toolName : String) : Option X402DiscoveryResource :=
  match items with
  | [] => none
  | r :: t =>
    if (resourceToTool r).isNone then findResourceForToolName t toolName
    else
      let method :=
        if methodFromInput (extractAcceptsMetadata r).2 = "" then
          methodFromInput (extractMetadataInput r)
        else methodFromInput (extractAcceptsMetadata r).2
      if toolNameFromResource r.resource method = toolName then some r
      else findResourceForToolName t toolName

/-- Modelled from the spec: `x402types.DetectVersion` (package
`github.com/coinbase/x402/go/types`) is not part of this repository.
Following the spec's version-detection rule, structural detection
recognizes exactly the v2 envelope, a JSON object carrying both an
`accepted` and a `resource` field; every other shape yields no match, and
the callers then fall back to the explicit `x402Version` field
themselves. -/
def detectVersion (v : JValue) : Option Int :=
  match v with
  | .obj fs => if containsKey fs "accepted" && containsKey fs "resource" then some 2 else none
  | _ => none

/-- Model of `extractX402Version` (x402_http.go): the `x402Version` entry
when the payment is an object, Go `nil` (here `none`) otherwise. -/
def extractX402Version (payment : JValue) : Option JValue :=
  match payment with
  | .obj fs => jlookup fs "x402Version"
  | _ => none

/-- Model of `normalizeX402Version` (tools.go): accept any numeric value
(`int`, `int32`, `int64`, `float64`, `json.Number`), reject everything
else.  Numbers are integers in this model. -/
def normalizeX402Version (value : Option JValue) : Option Int :=
  match value with
  | some (.num n) => some n
  | _ => none

/-- Model of the Go struct `paymentHeader` (x402_http.go). -/
structure PaymentHeader where
  name : String
  value : String
  version : Int

/-- Model of `buildPaymentHeader` (x402_http.go): `PAYMENT-SIGNATURE` for
version at least two, `X-PAYMENT` otherwise; the value is the standard
base64 encoding of the payload bytes. -/
def buildPaymentHeader (version : Int) (payloadBytes : List Nat) : PaymentHeader :=
  { name := if version ≥ 2 then "PAYMENT-SIGNATURE" else "X-PAYMENT",
    value := b64encodeStr payloadBytes,
    version := version }

/-- Model of `encodePaymentHeader` (x402_http.go).  Go runs `DetectVersion`
on the marshalled bytes; key presence is preserved by the marshal round
trip, so the model applies `detectVersion` to the value itself. -/
def encodePaymentHeader (payment : JValue) : Option PaymentHeader :=
  let payloadBytes := jsonSerialize payment
  match detectVersion payment with
  | some version => some (buildPaymentHeader version payloadBytes)
  | none =>
    match normalizeX402Version (extractX402Version payment) with
    | some version => some (buildPaymentHeader version payloadBytes)
    | none => none

/-- Valid MIME header token byte (`net/textproto`). -/
def validHeaderByte (v : Nat) : Bool :=
  (48 ≤ v && v ≤ 57) || (65 ≤ v && v ≤ 90) || (97 ≤ v && v ≤ 122) ||
  v = 33 || v = 35 || v = 36 || v = 37 || v = 38 || v = 39 || v = 42 ||
  v = 43 || v = 45 || v = 46 || v = 94 || v = 95 || v = 96 || v = 124 || v = 126

/-- Case-normalization pass of `textproto.CanonicalMIMEHeaderKey`: upper
case at the start and after each hyphen, lower case elsewhere. -/
def canonChars : Bool → List Char → List Char
  | _, [] => []
  | upper, c :: t =>
    (if upper then upperChar c else lowerChar c) :: canonChars (c.toNat = 45) t

/-- Model of `textproto.CanonicalMIMEHeaderKey`, used by `Header.Get`:
keys with invalid bytes are returned unchanged. -/
def canonicalMIMEHeaderKey (s : String) : String :=
  if s.data.all (fun c => validHeaderByte c.toNat) then String.mk (canonChars true s.data) else s

/-- HTTP response model: status, header map (keys stored in canonical MIME
form, as `net/http` keeps them), body text. -/
structure HTTPResponse where
  statusCode : Int := 200
  headers : List (String × List String) := []
  body : String := ""

/-- Model of Go `http.Header.Get`: canonicalize the key, return the first
value, or the empty string. -/
def headerGet (headers : List (String × List String)) (k : String) : String :=
  match headers.find? (fun p => p.1 == canonicalMIMEHeaderKey k) with
  | some (_, v :: _) => v
  | _ => ""

/-- Model of `decodePaymentHeader` (transforms.go): reject the empty
string, base64-decode (standard alphabet first, then the unpadded standard
alphabet), and JSON-decode into an object. -/
def decodePaymentHeader (raw : String) : Option (List (String × JValue)) :=
  if raw = "" then none
  else
    match (match b64decodeStd raw with
           | some payload => some payload
           | none => b64decodeRawStd raw) with
    | some payload => jsonUnmarshalObj payload
    | none => none

/-- Model of `decodePaymentRequired` (x402_http.go).  The `resp == nil`
guard of the Go function is dropped: every caller passes a response. -/
def decodePaymentRequired (resp : HTTPResponse) (body : String) : Option (List (String × JValue)) :=
  match decodePaymentHeader (headerGet resp.headers "PAYMENT-REQUIRED") with
  | some paymentRequired => some paymentRequired
  | none =>
    if resp.statusCode ≠ 402 ∨ body = "" then none
    else
      match jsonUnmarshalObj (utf8Bytes body) with
      | none => none
      | some decoded =>
        let versionOk : Bool :=
          match detectVersion (.obj decoded) with
          | some version => version == 1
          | none =>
            match normalizeX402Version (jlookup decoded "x402Version") with
            | some version => version == 1
            | none => false
        if versionOk then (if containsKey decoded "accepts" then some decoded else none)
        else none

/-- Model of `decodePaymentResponse` (x402_http.go): `PAYMENT-RESPONSE`
header first, `X-PAYMENT-RESPONSE` second. -/
def decodePaymentResponse (resp : HTTPResponse) : Option (List (String × JValue)) :=
  match decodePaymentHeader (headerGet resp.headers "PAYMENT-RESPONSE") with
  | some paymentResponse => some paymentResponse
  | none => decodePaymentHeader (headerGet resp.headers "X-PAYMENT-RESPONSE")

/-- Model of the `*mcp.CallToolResult` fields this engine populates.  The
`content` field holds the value whose JSON rendering Go places into the
single text-content entry (plain messages are `.str`). -/
structure CallToolResult where
  content : JValue
  structuredContent : Option JValue := none
  isError : Bool := false
  meta : Option (List (String × JValue)) := none

/-- JSON view of the response header map as marshalled inside the proxy
payload. -/
def headersToJValue (hs : List (String × List String)) : JValue :=
  .obj (hs.map (fun p => (p.1, .arr (p.2.map JValue.str))))

/-- Model of `httpResponseToMCPResult` (transforms.go).  The bounded
(1 MiB) body read happens before this translation and is not modelled; the
`body` field stands for the (possibly truncated) text that was read. -/
def httpResponseToMCPResult (resp : HTTPResponse) : CallToolResult :=
  match decodePaymentRequired resp resp.body with
  | some paymentRequired =>
    { content := .obj paymentRequired,
      structuredContent := some (.obj paymentRequired),
      isError := true }
  | none =>
    let payload : JValue :=
      .obj [("body", .str resp.body), ("headers", headersToJValue resp.headers),
            ("status", .num resp.statusCode)]
    { content := payload,
      isError := decide (resp.statusCode ≥ 400),
      meta :=
        match decodePaymentResponse resp with
        | some paymentResponse => some [("x402/payment-response", .obj paymentResponse)]
        | none => none }

/-- Failure cases of `injectPaymentSignature` (tools.go), one constructor
per distinct `fmt.Errorf` site. -/
inductive InjectError where
  | notObject
  | missingPayload
  | encodeFailed
  | missingResource
  | missingAccepted
  | headersNotObject (headerName : String)

/-- Error text rendered for each failure (tools.go); the `encodeFailed`
case wraps an inner error whose text comes from outside the repository and
is elided here. -/
def injectErrorText : InjectError → String
  | .notObject => "x402/payment metadata must be an object"
  | .missingPayload => "x402/payment metadata missing payload"
  | .encodeFailed => "unable to encode x402 payment payload"
  | .missingResource => "x402/payment metadata missing resource for v2 payment"
  | .missingAccepted => "x402/payment metadata missing accepted for v2 payment"
  | .headersNotObject headerName => "headers must be an object to set " ++ headerName

/-- Replace the binding of `k` (Go map assignment on an existing key), or
append it. -/
def setKey (fs : List (String × JValue)) (k : String) (v : JValue) : List (String × JValue) :=
  match fs with
  | [] => [(k, v)]
  | p :: t => if p.1 == k then (k, v) :: t else p :: setKey t k v

/-- Go test `ok && payload != nil` on the `payload` entry: missing key or
explicit null. -/
def payloadMissing : Option JValue → Bool
  | none => true
  | some .null => true
  | some _ => false

/-- Type assertion `.(map[string]any)` on an optional value. -/
def asObj : Option JValue → Option (List (String × JValue))
  | some (.obj m) => some m
  | _ => none

/-- Header-merge step of `injectPaymentSignature` (tools.go): a present
`headers` entry must be an object and keeps a caller-supplied entry under
the payment header name; an absent entry is created with only the payment
header. -/
def mergeHeaders (ps : List (String × JValue)) (headerName headerValue : String) :
    Except InjectError (List (String × JValue)) :=
  match jlookup ps "headers" with
  | some (.obj headers) =>
    .ok (setKey ps "headers"
      (.obj (if containsKey headers headerName then headers
             else headers ++ [(headerName, .str headerValue)])))
  | some _ => .error (.headersNotObject headerName)
  | none => .ok (ps ++ [("headers", .obj [(headerName, .str headerValue)])])

/-- Model of `injectPaymentSignature` (tools.go): validate the credential
object and its payload, encode the header, enforce the v2 envelope, and
merge the header into `params.headers` without overwriting a caller-set
entry.  `none` parameters model a nil Go map. -/
def injectPaymentSignature (params : Option (List (String × JValue))) (payment : JValue) :
    Except InjectError (List (String × JValue)) :=
  match payment with
  | .obj paymentMap =>
    if payloadMissing (jlookup paymentMap "payload") then .error .missingPayload
    else
      match encodePaymentHeader payment with
      | none => .error .encodeFailed
      | some header =>
        let v2ok : Except InjectError Unit :=
          if header.version ≥ 2 then
            match asObj (jlookup paymentMap "resource") with
            | none => .error .missingResource
            | some _ =>
              match asObj (jlookup paymentMap "accepted") with
              | none => .error .missingAccepted
              | some _ => .ok ()
          else .ok ()
        match v2ok with
        | .error e => .error e
        | .ok _ => mergeHeaders (params.getD []) header.name header.value
  | _ => .error .notObject

/-- Model of the payment-injection step of `ProxyToolCall` (tools.go):
when the call metadata carries a non-nil `x402/payment` value, inject it;
a failure becomes an error-flagged tool result. -/
def proxyToolCallPaymentStep (params : Option (List (String × JValue))) (payment : Option JValue) :
    Except CallToolResult (Option (List (String × JValue))) :=
  match payment with
  | none => .ok params
  | some .null => .ok params
  | some p =>
    match injectPaymentSignature params p with
    | .ok newParams => .ok (some newParams)
    | .error e =>
      .error { content := .str ("Error: invalid x402 payment metadata: " ++ injectErrorText e),
               isError := true }

/-- Claim-side transcription of C1's sanitation wording: every character
outside `a-z`/`0-9` is replaced by an underscore with `A-Z` lower-cased
first, leading and trailing underscores are trimmed, and the literal
`resource` stands in for an empty result. -/
def sanitizeSpecC1 (value : String) : String :=
  let mapped := value.data.map (fun c =>
    if (97 ≤ c.toNat ∧ c.toNat ≤ 122) ∨ (48 ≤ c.toNat ∧ c.toNat ≤ 57) then c
    else if 65 ≤ c.toNat ∧ c.toNat ≤ 90 then Char.ofNat (c.toNat + 32)
    else Char.ofNat 95)
  let trimmed := (dropUnderscores ((dropUnderscores mapped).reverse)).reverse
  if trimmed.isEmpty then "resource" else String.mk trimmed

/-- Claim-side transcription of C1's name format: `x402_`, the sanitized
lower-cased method plus underscore when the method is non-empty, the
sanitized URL, an underscore, and the first eight hex characters of the
hash of `m ++ colon ++ u`. -/
def toolNameSpecC1 (m u : String) : String :=
  "x402_" ++ (if m = "" then "" else sanitizeSpecC1 (goToLower m) ++ "_") ++ sanitizeSpecC1 u ++
    "_" ++ String.mk ((hexStr (sha1Bytes (utf8Bytes (m ++ ":" ++ u)))).data.take 8)

/-- Claim-side helper for C8: the first non-empty description among
`accepts[].description`. -/
def firstNonEmptyDescLoop : List X402PaymentRequirements → Option String
  | [] => none
  | r :: t => if r.description ≠ "" then some r.description else firstNonEmptyDescLoop t

/-- Claim-side helper for C8 over a resource. -/
def firstNonEmptyDesc (r : X402DiscoveryResource) : Option String :=
  match r.accepts with
  | none => none
  | some reqs => firstNonEmptyDescLoop reqs

/-- Structural v2 envelope test of the claims: the credential is an object
carrying both an `accepted` and a `resource` field. -/
def hasEnvelope (payment : JValue) : Bool :=
  match payment with
  | .obj fs => containsKey fs "accepted" && containsKey fs "resource"
  | _ => false

/-- Claim-side version test for the 402-body path: the version resolves to
exactly one, structurally or via the explicit `x402Version` field when
structural detection fails. -/
def versionResolvesTo1 (fs : List (String × JValue)) : Bool :=
  match detectVersion (.obj fs) with
  | some version => version == 1
  | none =>
    match normalizeX402Version (jlookup fs "x402Version") with
    | some version => version == 1
    | none => false

/-- Carrier predicate for the amended C8: a requirement bearing a non-empty
decoded description or an input descriptor. -/
def carrierPred (q : X402PaymentRequirements) : Bool :=
  !(reqDecodedDesc q == "") || (reqDecodedInput q).isSome

/-- First requirement of the resource carrying a description or an input
descriptor. -/
def acceptsCarrier (r : X402DiscoveryResource) : Option X402PaymentRequirements :=
  match r.accepts with
  | none => none
  | some reqs => reqs.find? carrierPred

/-- The metadata description string of a resource (empty when absent or not
a string). -/
def metaDesc (r : X402DiscoveryResource) : String :=
  match r.metadata with
  | none => ""
  | some m =>
    match jlookup m "description" with
    | some (.str d) => d
    | _ => ""

/-- Metadata-or-default fallback description. -/
def fallbackDesc (r : X402DiscoveryResource) : String :=
  if metaDesc r ≠ "" then metaDesc r else "Proxy call to " ++ r.resource

/-- Claim-side (amended C8) description choice: the decoded description of
the first carrier requirement when non-empty, else the metadata
description, else the generated default. -/
def chooseDescSpec (r : X402DiscoveryResource) : String :=
  match acceptsCarrier r with
  | some q => if reqDecodedDesc q ≠ "" then reqDecodedDesc q else fallbackDesc r
  | none => fallbackDesc r

/-- Claim-side (amended C8) full description: chosen description, trimmed,
with the fixed proxy-call suffix. -/
def descSpecC8 (r : X402DiscoveryResource) : String :=
  trimSpace (chooseDescSpec r) ++ " Use proxy_tool_call with payment to execute."

/-- Example v2 credential (the shape of `payment_meta_test.go`). -/
def v2payEx : JValue := .obj
  [("accepted", .obj [("network", .str "eip155:84532"), ("scheme", .str "exact")]),
   ("payload", .obj [("signature", .str "0xdeadbeef")]),
   ("resource", .obj [("url", .str "mcp://tool/financial_analysis")]),
   ("x402Version", .num 2)]

/-- Example v1 credential (the shape of `payment_meta_test.go`). -/
def v1payEx : JValue := .obj
  [("network", .str "base-sepolia"),
   ("payload", .obj [("signature", .str "0xdeadbeef")]),
   ("scheme", .str "exact"),
   ("x402Version", .num 1)]

/-- Tool-call parameters with a caller-supplied payment header. -/
def psC5Ex : List (String × JValue) :=
  [("headers", .obj [("X-PAYMENT", .str "mine")]), ("query", .obj [("city", .str "SF")])]

/-- Response carrying a payment-required header (base64 of the one-field
object with `a` mapped to one). -/
def respC3Ex : HTTPResponse :=
  { statusCode := 402, headers := [("Payment-Required", ["eyJhIjoxfQ=="])],
    body := "Payment required" }

/-- Plain 200 response carrying a settlement header (base64 of the
one-field object with `ok` mapped to true). -/
def respC3Ex2 : HTTPResponse :=
  { statusCode := 200, headers := [("Payment-Response", ["eyJvayI6dHJ1ZX0="])],
    body := "hello" }

/-- 402 response whose JSON body carries an explicit null `accepts`. -/
def respC4Ex : HTTPResponse :=
  { statusCode := 402, body := "\x7b\"x402Version\":1,\"accepts\":null\x7d" }

/-- 402 response whose JSON body is a well-formed v1 payment-required
envelope. -/
def respC4WEx : HTTPResponse :=
  { statusCode := 402, body := "\x7b\"accepts\":[],\"x402Version\":1\x7d" }

/-- Requirement carrying only an input descriptor (no description). -/
def reqInputOnlyEx : X402PaymentRequirements :=
  { outputSchema := [("input", .obj [("method", .str "get")])] }

/-- Requirement carrying only a description. -/
def reqBetterEx : X402PaymentRequirements := { description := "Better" }

/-- Resource whose first accepts entry has an input but no description and
whose second entry has the description. -/
def rC8Ex : X402DiscoveryResource :=
  { resource := "http://x/weather", type := "http", x402Version := 1,
    accepts := some [reqInputOnlyEx, reqBetterEx] }

/-- Resource with a single described requirement. -/
def rC8Ex2 : X402DiscoveryResource :=
  { resource := "http://x/weather", type := "http", x402Version := 1,
    accepts := some [reqBetterEx] }

/-- Resource with upper-case type tag. -/
def rC9Ex : X402DiscoveryResource := { resource := "http://x", type := "HTTP" }

/-- Resource of a non-HTTP type. -/
def rGrpcEx : X402DiscoveryResource := { resource := "http://x", type := "grpc" }

/-! ## Auxiliary lemmas: characters, whitespace, base64, digits -/

theorem charCode_round (n : Nat) (h : n < 55296) : (Char.ofNat n).toNat = n := by
  have hv : n.isValidChar := Or.inl h
  simp [Char.ofNat, hv, Char.ofNatAux, Char.toNat, UInt32.toNat, BitVec.toNat_ofNatLt]

theorem char_toNat_lt (c : Char) : c.toNat < 1114112 := by
  have he : c.toNat = c.val.toNat := rfl
  rcases c.valid with h | h
  · rw [he]; omega
  · rw [he]; omega

theorem mkChar_toNat (c : Char) : mkChar c.toNat = some c := by
  have hv : (Char.toNat c).isValidChar := c.valid
  simp [mkChar, hv, Char.ofNat_toNat]

theorem charOfNat_eq {c : Char} {n : Nat} (h : c.toNat = n) : Char.ofNat n = c := by
  subst h
  exact Char.ofNat_toNat c

theorem strMk_data (s : String) : String.mk s.data = s := rfl

theorem strCodes_codesToStr (cs : List Nat) (h : ∀ c ∈ cs, c < 55296) :
    strCodes (codesToStr cs) = cs := by
  induction cs with
  | nil => rfl
  | cons c t ih =>
    have hc : c < 55296 := h c (by simp)
    have ht : ∀ x ∈ t, x < 55296 := fun x hx => h x (by simp [hx])
    simp [strCodes, codesToStr] at ih ⊢
    exact ⟨charCode_round c hc, ih ht⟩

theorem skipWs_cons {b : Nat} (t : List Nat) (h : isWsB b = false) :
    skipWs (b :: t) = b :: t := by
  simp [skipWs, h]

theorem b64v_b64c (i : Nat) (h : i < 64) : b64v (b64c i) = some i := by
  have key : ∀ j : Fin 64, b64v (b64c j.1) = some j.1 := by decide
  exact key ⟨i, h⟩

theorem b64c_ne_pad (i : Nat) : b64c i ≠ 61 := by
  unfold b64c
  split
  · omega
  · split
    · omega
    · split
      · omega
      · split <;> omega

theorem b64c_lt (i : Nat) : b64c i < 123 := by
  unfold b64c
  split
  · omega
  · split
    · omega
    · split
      · omega
      · split <;> omega

theorem b64encodeCodes_lt (bs : List Nat) : ∀ c ∈ b64encodeCodes bs, c < 55296 := by
  induction bs using b64encodeCodes.induct with
  | case1 => simp [b64encodeCodes]
  | case2 b1 =>
    simp only [b64encodeCodes]
    intro c hc
    simp at hc
    rcases hc with h | h | h | h <;> first
      | (subst h; exact lt_trans (b64c_lt _) (by omega))
      | omega
  | case3 b1 b2 =>
    simp only [b64encodeCodes]
    intro c hc
    simp at hc
    rcases hc with h | h | h | h <;> first
      | (subst h; exact lt_trans (b64c_lt _) (by omega))
      | omega
  | case4 b1 b2 b3 rest ih =>
    simp only [b64encodeCodes]
    intro c hc
    simp at hc
    rcases hc with h | h | h | h | h <;> first
      | (subst h; exact lt_trans (b64c_lt _) (by omega))
      | exact ih c h

theorem b64decode_encode (bs : List Nat) (h : ∀ b ∈ bs, b < 256) :
    b64decodeCodes (b64encodeCodes bs) = some bs := by
  induction bs using b64encodeCodes.induct with
  | case1 => rfl
  | case2 b1 =>
    have hb1 : b1 < 256 := h b1 (by simp)
    have h1 : b1 / 4 < 64 := by omega
    have h2 : b1 % 4 * 16 < 64 := by omega
    simp [b64encodeCodes, b64decodeCodes, b64quad2, b64v_b64c _ h1, b64v_b64c _ h2]
    omega
  | case3 b1 b2 =>
    have hb1 : b1 < 256 := h b1 (by simp)
    have hb2 : b2 < 256 := h b2 (by simp)
    have h1 : b1 / 4 < 64 := by omega
    have h2 : b1 % 4 * 16 + b2 / 16 < 64 := by omega
    have h3 : b2 % 16 * 4 < 64 := by omega
    simp [b64encodeCodes, b64decodeCodes, b64quad3, b64v_b64c _ h1, b64v_b64c _ h2,
      b64v_b64c _ h3, b64c_ne_pad]
    omega
  | case4 b1 b2 b3 rest ih =>
    have hb1 : b1 < 256 := h b1 (by simp)
    have hb2 : b2 < 256 := h b2 (by simp)
    have hb3 : b3 < 256 := h b3 (by simp)
    have hrest : ∀ b ∈ rest, b < 256 := fun b hb => h b (by simp [hb])
    have h1 : b1 / 4 < 64 := by omega
    have h2 : b1 % 4 * 16 + b2 / 16 < 64 := by omega
    have h3 : b2 % 16 * 4 + b3 / 64 < 64 := by omega
    have h4 : b3 % 64 < 64 := by omega
    simp [b64encodeCodes, b64decodeCodes, b64quad4, b64v_b64c _ h1, b64v_b64c _ h2,
      b64v_b64c _ h3, b64v_b64c _ h4, b64c_ne_pad, ih hrest]
    omega

theorem b64_str_round (bs : List Nat) (h : ∀ b ∈ bs, b < 256) :
    b64decodeStd (b64encodeStr bs) = some bs := by
  unfold b64decodeStd b64encodeStr
  rw [strCodes_codesToStr _ (b64encodeCodes_lt bs), b64decode_encode bs h]

theorem digitsRevAux_mem (fuel n : Nat) :
    ∀ d ∈ digitsRevAux fuel n, 48 ≤ d ∧ d ≤ 57 := by
  induction fuel generalizing n with
  | zero => simp [digitsRevAux]
  | succ fuel ih =>
    intro d hd
    unfold digitsRevAux at hd
    split at hd
    · simp at hd
    · simp at hd
      rcases hd with h | h
      · omega
      · exact ih (n / 10) d h

theorem natDigits_mem (n : Nat) : ∀ d ∈ natDigits n, 48 ≤ d ∧ d ≤ 57 := by
  intro d hd
  unfold natDigits at hd
  split at hd
  · simp at hd
    omega
  · rw [List.mem_reverse] at hd
    exact digitsRevAux_mem n n d hd

theorem natDigits_ne_nil (n : Nat) : natDigits n ≠ [] := by
  unfold natDigits
  split
  · simp
  · rename_i hn
    unfold digitsRevAux
    split
    · omega
    · rename_i fuel m heq
      split
      · omega
      · simp

theorem foldl_digitsRevAux (fuel : Nat) :
    ∀ n acc, n ≤ fuel →
      List.foldl (fun a d => a * 10 + (d - 48)) acc ((digitsRevAux fuel n).reverse) =
        acc * 10 ^ (digitsRevAux fuel n).length + n := by
  induction fuel with
  | zero =>
    intro n acc hn
    have : n = 0 := by omega
    subst this
    simp [digitsRevAux]
  | succ fuel ih =>
    intro n acc hn
    unfold digitsRevAux
    split
    · rename_i h0
      subst h0
      simp
    · rename_i h0
      have hdiv : n / 10 ≤ fuel := by omega
      simp only [List.reverse_cons, List.foldl_append, List.foldl_cons, List.foldl_nil,
        List.length_cons]
      rw [ih (n / 10) acc hdiv]
      have h48 : (48 + n % 10) - 48 = n % 10 := by omega
      rw [h48, pow_succ]
      have hmod : n / 10 * 10 + n % 10 = n := by omega
      have hra : (acc * 10 ^ (digitsRevAux fuel (n / 10)).length + n / 10) * 10 + n % 10 =
          acc * (10 ^ (digitsRevAux fuel (n / 10)).length * 10) + (n / 10 * 10 + n % 10) := by
        ring
      rw [hra, hmod]

theorem digitsVal_natDigits (n : Nat) : digitsVal (natDigits n) = n := by
  unfold natDigits digitsVal
  split
  · rename_i h
    subst h
    rfl
  · rw [foldl_digitsRevAux n n 0 (le_refl n)]
    simp

theorem parseDigits_append (ds rest : List Nat) (hds : ∀ d ∈ ds, isDigitB d = true)
    (hrest : ∀ b, rest.head? = some b → isDigitB b = false) :
    parseDigits (ds ++ rest) = (ds, rest) := by
  induction ds with
  | nil =>
    simp only [List.nil_append]
    cases rest with
    | nil => rfl
    | cons b t =>
      have hb : isDigitB b = false := hrest b rfl
      simp [parseDigits, hb]
  | cons d t ih =>
    have hd : isDigitB d = true := hds d (by simp)
    have ht : ∀ x ∈ t, isDigitB x = true := fun x hx => hds x (by simp [hx])
    simp [parseDigits, hd, ih ht]

theorem goodTail_numTailOk (rest : List Nat) (h : goodTail rest = true) :
    numTailOk rest = true := by
  cases rest with
  | nil => rfl
  | cons b t =>
    simp [goodTail] at h
    rcases h with (h | h) | h <;> subst h <;> rfl

theorem goodTail_headNotDigit (rest : List Nat) (h : goodTail rest = true) :
    ∀ b, rest.head? = some b → isDigitB b = false := by
  intro b hb
  cases rest with
  | nil => simp at hb
  | cons c t =>
    simp at hb
    subst hb
    simp [goodTail] at h
    rcases h with (h | h) | h <;> subst h <;> rfl

theorem isDigitB_natDigits (n : Nat) : ∀ d ∈ natDigits n, isDigitB d = true := by
  intro d hd
  have := natDigits_mem n d hd
  simp [isDigitB]
  omega

theorem parseNum_ser (k : Int) (rest : List Nat) (h : goodTail rest = true) :
    parseNum (intDigits k ++ rest) = some (.num k, rest) := by
  cases k with
  | ofNat n =>
    obtain ⟨d, t, hd⟩ : ∃ d t, natDigits n = d :: t := by
      cases hnd : natDigits n with
      | nil => exact absurd hnd (natDigits_ne_nil n)
      | cons d t => exact ⟨d, t, rfl⟩
    have hpd : parseDigits (natDigits n ++ rest) = (natDigits n, rest) :=
      parseDigits_append _ _ (isDigitB_natDigits n) (goodTail_headNotDigit rest h)
    have hpd2 : parseDigits (d :: (t ++ rest)) = (d :: t, rest) := by
      have he : d :: (t ++ rest) = (d :: t) ++ rest := rfl
      rw [he, ← hd, hpd, hd]
    have hd48 : 48 ≤ d ∧ d ≤ 57 := natDigits_mem n d (by rw [hd]; simp)
    have hne : ¬(d = 45) := by omega
    have hval : digitsVal (d :: t) = n := by
      rw [← hd]
      exact digitsVal_natDigits n
    simp [intDigits, hd, parseNum, hne, hpd2, goodTail_numTailOk rest h, hval]
  | negSucc m =>
    obtain ⟨d, t, hd⟩ : ∃ d t, natDigits (m + 1) = d :: t := by
      cases hnd : natDigits (m + 1) with
      | nil => exact absurd hnd (natDigits_ne_nil (m + 1))
      | cons d t => exact ⟨d, t, rfl⟩
    have hpd : parseDigits (natDigits (m + 1) ++ rest) = (natDigits (m + 1), rest) :=
      parseDigits_append _ _ (isDigitB_natDigits (m + 1)) (goodTail_headNotDigit rest h)
    have hpd2 : parseDigits (d :: (t ++ rest)) = (d :: t, rest) := by
      have he : d :: (t ++ rest) = (d :: t) ++ rest := rfl
      rw [he, ← hd, hpd, hd]
    have hval : digitsVal (d :: t) = m + 1 := by
      rw [← hd]
      exact digitsVal_natDigits (m + 1)
    have hneg : -(Int.ofNat (m + 1)) = Int.negSucc m := by
      rw [Int.negSucc_eq]
      simp [Int.ofNat_eq_coe]
    simp only [intDigits, hd, List.cons_append, parseNum, if_pos, goodTail_numTailOk rest h,
      hpd2, hval, hneg, if_true]

/-! ## String escape round trip -/

theorem hexVal_hexDigit (x : Nat) (h : x < 16) : hexVal (hexDigit x) = some x := by
  have key : ∀ j : Fin 16, hexVal (hexDigit j.1) = some j.1 := by decide
  exact key ⟨x, h⟩

theorem strChar_escape (c : Char) (rest : List Nat) :
    ∃ b bs, escapeChar c = b :: bs ∧ ¬(b = 34) ∧ strChar b (bs ++ rest) = some (c, rest) := by
  by_cases h34 : c.toNat = 34
  · refine ⟨92, [34], by simp [escapeChar, h34], by omega, ?_⟩
    simp [strChar]
    exact charOfNat_eq h34
  · by_cases h92 : c.toNat = 92
    · refine ⟨92, [92], by simp [escapeChar, h34, h92], by omega, ?_⟩
      simp [strChar]
      exact charOfNat_eq h92
    · by_cases hctl : c.toNat < 32
      · refine ⟨92, [117, 48, 48, hexDigit (c.toNat / 16), hexDigit (c.toNat % 16)],
          by simp [escapeChar, h34, h92, hctl], by omega, ?_⟩
        have e1 : hexVal (hexDigit (c.toNat / 16)) = some (c.toNat / 16) :=
          hexVal_hexDigit _ (by omega)
        have e2 : hexVal (hexDigit (c.toNat % 16)) = some (c.toNat % 16) :=
          hexVal_hexDigit _ (by omega)
        have e0 : hexVal 48 = some 0 := by norm_num [hexVal]
        have harg : 0 * 4096 + 0 * 256 + c.toNat / 16 * 16 + c.toNat % 16 = c.toNat := by
          omega
        have harg2 : c.toNat / 16 * 16 + c.toNat % 16 = c.toNat := by omega
        simp [strChar, e0, e1, e2, harg, harg2, mkChar_toNat]
      · have hesc : escapeChar c = utf8Char c := by
          simp [escapeChar, h34, h92, hctl]
        by_cases h128 : c.toNat < 128
        · refine ⟨c.toNat, [], by simp [hesc, utf8Char, h128], h34, ?_⟩
          simp [strChar, h92, hctl, h128, mkChar_toNat]
        · by_cases h2048 : c.toNat < 2048
          · refine ⟨192 + c.toNat / 64, [128 + c.toNat % 64],
              by simp [hesc, utf8Char, h128, h2048], by omega, ?_⟩
            have hb92 : ¬(192 + c.toNat / 64 = 92) := by omega
            have hb32 : ¬(192 + c.toNat / 64 < 32) := by omega
            have hb128 : ¬(192 + c.toNat / 64 < 128) := by omega
            have hbr : 192 ≤ 192 + c.toNat / 64 ∧ 192 + c.toNat / 64 < 224 := by omega
            have hcont : isContB (128 + c.toNat % 64) = true := by
              simp [isContB]
              omega
            have harg : (192 + c.toNat / 64 - 192) * 64 + (128 + c.toNat % 64 - 128) =
                c.toNat := by omega
            have harg2 : c.toNat / 64 * 64 + c.toNat % 64 = c.toNat := by omega
            simp [strChar, hb92, hb32, hb128, hbr, hcont, harg, harg2, mkChar_toNat]
          · by_cases h65536 : c.toNat < 65536
            · refine ⟨224 + c.toNat / 4096, [128 + c.toNat / 64 % 64, 128 + c.toNat % 64],
                by simp [hesc, utf8Char, h128, h2048, h65536], by omega, ?_⟩
              have hb92 : ¬(224 + c.toNat / 4096 = 92) := by omega
              have hb32 : ¬(224 + c.toNat / 4096 < 32) := by omega
              have hb128 : ¬(224 + c.toNat / 4096 < 128) := by omega
              have hbr2 : ¬(192 ≤ 224 + c.toNat / 4096 ∧ 224 + c.toNat / 4096 < 224) := by
                omega
              have hbr3 : 224 ≤ 224 + c.toNat / 4096 ∧ 224 + c.toNat / 4096 < 240 := by omega
              have hcont1 : isContB (128 + c.toNat / 64 % 64) = true := by
                simp [isContB]
                omega
              have hcont2 : isContB (128 + c.toNat % 64) = true := by
                simp [isContB]
                omega
              have harg : (224 + c.toNat / 4096 - 224) * 4096 +
                  (128 + c.toNat / 64 % 64 - 128) * 64 + (128 + c.toNat % 64 - 128) =
                  c.toNat := by omega
              have harg2 : c.toNat / 4096 * 4096 + (c.toNat / 64 % 64 * 64 + c.toNat % 64) =
                  c.toNat := by omega
              have harg3 : c.toNat / 4096 * 4096 + c.toNat / 64 % 64 * 64 + c.toNat % 64 =
                  c.toNat := by omega
              simp [strChar, hb92, hb32, hb128, hbr2, hbr3, hcont1, hcont2, harg, harg2,
                harg3, mkChar_toNat]
            · have hlt : c.toNat < 1114112 := char_toNat_lt c
              refine ⟨240 + c.toNat / 262144,
                [128 + c.toNat / 4096 % 64, 128 + c.toNat / 64 % 64, 128 + c.toNat % 64],
                by simp [hesc, utf8Char, h128, h2048, h65536], by omega, ?_⟩
              have hb92 : ¬(240 + c.toNat / 262144 = 92) := by omega
              have hb32 : ¬(240 + c.toNat / 262144 < 32) := by omega
              have hb128 : ¬(240 + c.toNat / 262144 < 128) := by omega
              have hbr2 : ¬(192 ≤ 240 + c.toNat / 262144 ∧ 240 + c.toNat / 262144 < 224) := by
                omega
              have hbr3 : ¬(224 ≤ 240 + c.toNat / 262144 ∧ 240 + c.toNat / 262144 < 240) := by
                omega
              have hbr4 : 240 ≤ 240 + c.toNat / 262144 ∧ 240 + c.toNat / 262144 < 248 := by
                omega
              have hcont1 : isContB (128 + c.toNat / 4096 % 64) = true := by
                simp [isContB]
                omega
              have hcont2 : isContB (128 + c.toNat / 64 % 64) = true := by
                simp [isContB]
                omega
              have hcont3 : isContB (128 + c.toNat % 64) = true := by
                simp [isContB]
                omega
              have harg : (240 + c.toNat / 262144 - 240) * 262144 +
                  (128 + c.toNat / 4096 % 64 - 128) * 4096 +
                  (128 + c.toNat / 64 % 64 - 128) * 64 + (128 + c.toNat % 64 - 128) =
                  c.toNat := by omega
              have harg2 : c.toNat / 262144 * 262144 +
                  (c.toNat / 4096 % 64 * 4096 + (c.toNat / 64 % 64 * 64 + c.toNat % 64)) =
                  c.toNat := by omega
              have harg3 : c.toNat / 262144 * 262144 + c.toNat / 4096 % 64 * 4096 +
                  c.toNat / 64 % 64 * 64 + c.toNat % 64 = c.toNat := by omega
              simp [strChar, hb92, hb32, hb128, hbr2, hbr3, hbr4, hcont1, hcont2, hcont3,
                harg, harg2, harg3, mkChar_toNat]

theorem parseStrBody_escape (cs : List Char) :
    ∀ (fuel : Nat) (rest : List Nat), cs.length < fuel →
      parseStrBody fuel (escapeChars cs ++ 34 :: rest) = some (cs, rest) := by
  induction cs with
  | nil =>
    intro fuel rest hf
    cases fuel with
    | zero => omega
    | succ f => simp [escapeChars, parseStrBody]
  | cons c t ih =>
    intro fuel rest hf
    cases fuel with
    | zero => omega
    | succ f =>
      have hft : t.length < f := by
        simp only [List.length_cons] at hf
        omega
      have iht := ih f rest hft
      obtain ⟨b, bs, heq, hb34, hsc⟩ := strChar_escape c (escapeChars t ++ 34 :: rest)
      have hin : escapeChars (c :: t) ++ 34 :: rest =
          b :: (bs ++ (escapeChars t ++ 34 :: rest)) := by
        simp [escapeChars, heq]
      rw [hin, parseStrBody]
      simp [hb34, hsc, iht, consChar]

theorem escapeChar_len_pos (c : Char) : 1 ≤ (escapeChar c).length := by
  unfold escapeChar
  split
  · simp
  · split
    · simp
    · split
      · simp
      · unfold utf8Char
        split
        · simp
        · split
          · simp
          · split <;> simp

theorem escapeChars_len_ge (cs : List Char) : cs.length ≤ (escapeChars cs).length := by
  induction cs with
  | nil => simp [escapeChars]
  | cons c t ih =>
    simp only [escapeChars, List.length_append, List.length_cons]
    have := escapeChar_len_pos c
    omega

theorem parseStr_ser (s : String) (rest : List Nat) :
    parseStr (escapeChars s.data ++ 34 :: rest) = some (s, rest) := by
  unfold parseStr
  have hlen : s.data.length < (escapeChars s.data ++ 34 :: rest).length + 1 := by
    simp only [List.length_append, List.length_cons]
    have := escapeChars_len_ge s.data
    omega
  rw [parseStrBody_escape s.data _ rest hlen]
  simp [strMk_data]

/-! ## Parser round trip on serialized values -/

theorem intDigits_head (k : Int) :
    ∃ d t, intDigits k = d :: t ∧ (d = 45 ∨ (48 ≤ d ∧ d ≤ 57)) := by
  cases k with
  | ofNat n =>
    obtain ⟨d, t, hd⟩ : ∃ d t, natDigits n = d :: t := by
      cases hnd : natDigits n with
      | nil => exact absurd hnd (natDigits_ne_nil n)
      | cons d t => exact ⟨d, t, rfl⟩
    have := natDigits_mem n d (by rw [hd]; simp)
    exact ⟨d, t, hd, by omega⟩
  | negSucc m => exact ⟨45, natDigits (m + 1), rfl, by omega⟩

theorem serVal_head (v : JValue) :
    ∃ b t, serVal v = b :: t ∧
      (b = 110 ∨ b = 116 ∨ b = 102 ∨ b = 45 ∨ (48 ≤ b ∧ b ≤ 57) ∨ b = 34 ∨ b = 91 ∨
        b = 123) := by
  cases v with
  | null => exact ⟨110, _, rfl, by omega⟩
  | bool b =>
    cases b with
    | true => exact ⟨116, _, rfl, by omega⟩
    | false => exact ⟨102, _, rfl, by omega⟩
  | num k =>
    obtain ⟨d, t, hd, hdr⟩ := intDigits_head k
    exact ⟨d, t, by simp [serVal, hd], by omega⟩
  | str s => exact ⟨34, _, rfl, by omega⟩
  | arr items => exact ⟨91, _, rfl, by omega⟩
  | obj fields => exact ⟨123, _, rfl, by omega⟩

theorem serVal_len_pos (v : JValue) : 1 ≤ (serVal v).length := by
  obtain ⟨b, t, hb, _⟩ := serVal_head v
  simp [hb]

theorem serElems_len_pos (v : JValue) (t : List JValue) :
    1 ≤ (serElems (v :: t)).length := by
  cases t with
  | nil =>
    show 1 ≤ (serVal v).length
    exact serVal_len_pos v
  | cons v2 t2 =>
    have h1 := serVal_len_pos v
    simp only [serElems, List.length_append, List.length_cons]
    omega

theorem serFields_len_pos (p : String × JValue) (t : List (String × JValue)) :
    1 ≤ (serFields (p :: t)).length := by
  obtain ⟨k, v⟩ := p
  cases t with
  | nil =>
    simp only [serFields, List.length_append, List.length_cons]
    omega
  | cons q t2 =>
    simp only [serFields, List.length_append, List.length_cons]
    omega

theorem parse_ser_main (fuel : Nat) :
    (∀ (v : JValue) (rest : List Nat), isCanonical v = true →
      (serVal v).length ≤ fuel → goodTail rest = true →
      parseVal fuel (serVal v ++ rest) = some (v, rest)) ∧
    (∀ (items : List JValue) (rest : List Nat), items ≠ [] → allCanonical items = true →
      (serElems items).length + 1 ≤ fuel → goodTail rest = true →
      parseElems fuel (serElems items ++ 93 :: rest) = some (items, rest)) ∧
    (∀ (fs : List (String × JValue)) (rest : List Nat), fs ≠ [] → fieldsCanonical fs = true →
      (serFields fs).length + 1 ≤ fuel → goodTail rest = true →
      parseFields fuel (serFields fs ++ 125 :: rest) = some (fs, rest)) := by
  induction fuel with
  | zero =>
    refine ⟨?_, ?_, ?_⟩
    · intro v rest _ hlen _
      have := serVal_len_pos v
      omega
    · intro items rest hne _ hlen _
      omega
    · intro fs rest hne _ hlen _
      omega
  | succ f ih =>
    obtain ⟨ihV, ihE, ihF⟩ := ih
    refine ⟨?_, ?_, ?_⟩
    · intro v rest hc hlen hgt
      cases v with
      | null => simp [serVal, parseVal, skipWs, isWsB]
      | bool b => cases b <;> simp [serVal, parseVal, skipWs, isWsB]
      | num k =>
        obtain ⟨d, t, hd, hdr⟩ := intDigits_head k
        have hin : serVal (.num k) ++ rest = d :: (t ++ rest) := by simp [serVal, hd]
        rw [hin, parseVal]
        have hws : isWsB d = false := by simp [isWsB]; omega
        rw [skipWs_cons _ hws]
        have h110 : ¬(d = 110) := by omega
        have h116 : ¬(d = 116) := by omega
        have h102 : ¬(d = 102) := by omega
        have h34 : ¬(d = 34) := by omega
        have h91 : ¬(d = 91) := by omega
        have h123 : ¬(d = 123) := by omega
        simp only [if_neg h110, if_neg h116, if_neg h102, if_neg h34, if_neg h91, if_neg h123]
        have hin2 : d :: (t ++ rest) = intDigits k ++ rest := by simp [hd]
        rw [hin2]
        exact parseNum_ser k rest hgt
      | str s =>
        have hin : serVal (.str s) ++ rest = 34 :: (escapeChars s.data ++ 34 :: rest) := by
          simp [serVal, serString]
        rw [hin, parseVal]
        have hws : isWsB 34 = false := by simp [isWsB]
        rw [skipWs_cons _ hws]
        simp [parseStr_ser]
      | arr items =>
        cases items with
        | nil =>
          have hin : serVal (.arr []) ++ rest = 91 :: 93 :: rest := by simp [serVal, serElems]
          rw [hin]
          simp [parseVal, skipWs, isWsB]
        | cons v0 t0 =>
          have hcall : allCanonical (v0 :: t0) = true := by
            simpa [isCanonical] using hc
          obtain ⟨b, tb, hbeq, hbr⟩ := serVal_head v0
          obtain ⟨tb2, hsel⟩ : ∃ tb2, serElems (v0 :: t0) = b :: tb2 := by
            cases t0 with
            | nil => exact ⟨tb, by simpa [serElems] using hbeq⟩
            | cons v1 t1 =>
              refine ⟨tb ++ 44 :: serElems (v1 :: t1), ?_⟩
              simp [serElems, hbeq]
          have hin : serVal (.arr (v0 :: t0)) ++ rest =
              91 :: (serElems (v0 :: t0) ++ 93 :: rest) := by
            simp [serVal]
          rw [hin, parseVal]
          have hws : isWsB 91 = false := by simp [isWsB]
          rw [skipWs_cons _ hws]
          have hws2 : isWsB b = false := by simp [isWsB]; omega
          have hskip : skipWs (serElems (v0 :: t0) ++ 93 :: rest) =
              serElems (v0 :: t0) ++ 93 :: rest := by
            rw [hsel, List.cons_append, skipWs_cons _ hws2]
          have hhead : (serElems (v0 :: t0) ++ 93 :: rest).head? ≠ some 93 := by
            rw [hsel]
            simp
            omega
          have hlen2 : (serElems (v0 :: t0)).length + 1 ≤ f := by
            have : (serVal (.arr (v0 :: t0))).length =
                (serElems (v0 :: t0)).length + 2 := by
              simp [serVal]
            omega
          simp only [if_neg (by norm_num : ¬(91 = 110)), if_neg (by norm_num : ¬(91 = 116)),
            if_neg (by norm_num : ¬(91 = 102)), if_neg (by norm_num : ¬(91 = 34)),
            if_pos (rfl : (91 : Nat) = 91)]
          simp only [hskip, if_neg hhead]
          rw [ihE (v0 :: t0) rest (by simp) hcall hlen2 hgt]
          rfl
      | obj fs =>
        cases fs with
        | nil =>
          have hin : serVal (.obj []) ++ rest = 123 :: 125 :: rest := by simp [serVal, serFields]
          rw [hin]
          simp [parseVal, skipWs, isWsB]
        | cons p t0 =>
          have hcf : fieldsCanonical (p :: t0) = true := by
            have : isCanonical (.obj (p :: t0)) =
                (fieldsSortedB (p :: t0) && fieldsCanonical (p :: t0)) := rfl
            rw [this] at hc
            exact (Bool.and_eq_true_iff.mp hc).2
          obtain ⟨k0, v0⟩ := p
          obtain ⟨tb2, hsel⟩ : ∃ tb2, serFields ((k0, v0) :: t0) = 34 :: tb2 := by
            cases t0 with
            | nil => exact ⟨escapeChars k0.data ++ [34] ++ 58 :: serVal v0,
                by simp [serFields, serString]⟩
            | cons q t1 =>
              exact ⟨escapeChars k0.data ++ [34] ++ 58 :: serVal v0 ++ 44 :: serFields (q :: t1),
                by simp [serFields, serString]⟩
          have hin : serVal (.obj ((k0, v0) :: t0)) ++ rest =
              123 :: (serFields ((k0, v0) :: t0) ++ 125 :: rest) := by
            simp [serVal]
          rw [hin, parseVal]
          have hws : isWsB 123 = false := by simp [isWsB]
          rw [skipWs_cons _ hws]
          have hws2 : isWsB 34 = false := by simp [isWsB]
          have hskip : skipWs (serFields ((k0, v0) :: t0) ++ 125 :: rest) =
              serFields ((k0, v0) :: t0) ++ 125 :: rest := by
            rw [hsel, List.cons_append, skipWs_cons _ hws2]
          have hhead : (serFields ((k0, v0) :: t0) ++ 125 :: rest).head? ≠ some 125 := by
            rw [hsel]
            simp
          have hlen2 : (serFields ((k0, v0) :: t0)).length + 1 ≤ f := by
            have : (serVal (.obj ((k0, v0) :: t0))).length =
                (serFields ((k0, v0) :: t0)).length + 2 := by
              simp [serVal]
            omega
          simp only [if_neg (by norm_num : ¬(123 = 110)), if_neg (by norm_num : ¬(123 = 116)),
            if_neg (by norm_num : ¬(123 = 102)), if_neg (by norm_num : ¬(123 = 34)),
            if_neg (by norm_num : ¬(123 = 91)), if_pos (rfl : (123 : Nat) = 123)]
          simp only [hskip, if_neg hhead]
          rw [ihF ((k0, v0) :: t0) rest (by simp) hcf hlen2 hgt]
          rfl
    · intro items rest hne hall hlen hgt
      cases items with
      | nil => exact absurd rfl hne
      | cons v t =>
        have hcv : isCanonical v = true := by
          simp [allCanonical, Bool.and_eq_true_iff] at hall
          exact hall.1
        have hct : allCanonical t = true := by
          simp [allCanonical, Bool.and_eq_true_iff] at hall
          exact hall.2
        cases t with
        | nil =>
          have hsel : serElems [v] = serVal v := rfl
          rw [parseElems, hsel]
          have hlenv : (serVal v).length ≤ f := by
            rw [← hsel]
            omega
          rw [ihV v (93 :: rest) hcv hlenv rfl]
          simp [skipWs, isWsB]
        | cons v2 t2 =>
          have hsel : serElems (v :: v2 :: t2) = serVal v ++ 44 :: serElems (v2 :: t2) := rfl
          have hpos1 := serVal_len_pos v
          have hpos2 := serElems_len_pos v2 t2
          have hlens : (serElems (v :: v2 :: t2)).length =
              (serVal v).length + 1 + (serElems (v2 :: t2)).length := by
            simp [hsel]
            omega
          rw [parseElems, hsel]
          have hin : (serVal v ++ 44 :: serElems (v2 :: t2)) ++ 93 :: rest =
              serVal v ++ 44 :: (serElems (v2 :: t2) ++ 93 :: rest) := by
            simp
          rw [hin]
          rw [ihV v (44 :: (serElems (v2 :: t2) ++ 93 :: rest)) hcv (by omega) rfl]
          have hws : isWsB 44 = false := by simp [isWsB]
          simp only [skipWs_cons _ hws]
          rw [ihE (v2 :: t2) rest (by simp) hct (by omega) hgt]
          rfl
    · intro fs rest hne hcf hlen hgt
      cases fs with
      | nil => exact absurd rfl hne
      | cons p t =>
        obtain ⟨k0, v0⟩ := p
        have hcv : isCanonical v0 = true := by
          simp [fieldsCanonical, Bool.and_eq_true_iff] at hcf
          exact hcf.1
        have hct : fieldsCanonical t = true := by
          simp [fieldsCanonical, Bool.and_eq_true_iff] at hcf
          exact hcf.2
        have hstr : serString k0 = 34 :: (escapeChars k0.data ++ [34]) := rfl
        have hws58 : isWsB 58 = false := by simp [isWsB]
        have hws44 : isWsB 44 = false := by simp [isWsB]
        have hws125 : isWsB 125 = false := by simp [isWsB]
        have hlenstr : (serString k0).length = (escapeChars k0.data).length + 2 := by
          simp [serString]
        cases t with
        | nil =>
          have hsel : serFields [(k0, v0)] = serString k0 ++ 58 :: serVal v0 := rfl
          have hin : serFields [(k0, v0)] ++ 125 :: rest =
              34 :: (escapeChars k0.data ++ 34 :: (58 :: (serVal v0 ++ 125 :: rest))) := by
            simp [hsel, hstr]
          rw [parseFields, hin]
          have hws34 : isWsB 34 = false := by simp [isWsB]
          rw [skipWs_cons _ hws34]
          simp only [if_pos (rfl : (34 : Nat) = 34)]
          rw [parseStr_ser k0 (58 :: (serVal v0 ++ 125 :: rest))]
          have hlenv : (serVal v0).length ≤ f := by
            have hx : (serFields [(k0, v0)]).length =
                (serString k0).length + 1 + (serVal v0).length := by
              simp only [hsel, List.length_append, List.length_cons]
              omega
            omega
          simp only [skipWs_cons _ hws58]
          rw [ihV v0 (125 :: rest) hcv hlenv rfl]
          simp only [skipWs_cons _ hws125]
        | cons q t1 =>
          have hsel : serFields ((k0, v0) :: q :: t1) =
              serString k0 ++ 58 :: serVal v0 ++ 44 :: serFields (q :: t1) := rfl
          have hin : serFields ((k0, v0) :: q :: t1) ++ 125 :: rest =
              34 :: (escapeChars k0.data ++ 34 ::
                (58 :: (serVal v0 ++ 44 :: (serFields (q :: t1) ++ 125 :: rest)))) := by
            simp [hsel, hstr]
          rw [parseFields, hin]
          have hws34 : isWsB 34 = false := by simp [isWsB]
          rw [skipWs_cons _ hws34]
          simp only [if_pos (rfl : (34 : Nat) = 34)]
          rw [parseStr_ser k0 (58 :: (serVal v0 ++ 44 :: (serFields (q :: t1) ++ 125 :: rest)))]
          have hposf := serFields_len_pos q t1
          have hposv := serVal_len_pos v0
          have hlens : (serFields ((k0, v0) :: q :: t1)).length =
              (serString k0).length + 1 + (serVal v0).length + 1 +
                (serFields (q :: t1)).length := by
            simp [hsel]
            omega
          simp only [skipWs_cons _ hws58]
          rw [ihV v0 (44 :: (serFields (q :: t1) ++ 125 :: rest)) hcv (by omega) rfl]
          simp only [skipWs_cons _ hws44]
          rw [ihF (q :: t1) rest (by simp) hct (by omega) hgt]
          rfl

/-! ## Canonical values: sorting is the identity, top-level round trip -/

theorem fieldsSortedB_tail (p : String × JValue) (t : List (String × JValue))
    (h : fieldsSortedB (p :: t) = true) : fieldsSortedB t = true := by
  cases t with
  | nil => rfl
  | cons q t2 =>
    simp only [fieldsSortedB, Bool.and_eq_true] at h
    exact h.2

theorem sortFields_sorted_id (fs : List (String × JValue)) (h : fieldsSortedB fs = true) :
    sortFields fs = fs := by
  induction fs with
  | nil => rfl
  | cons p t ih =>
    have ht : fieldsSortedB t = true := fieldsSortedB_tail p t h
    show insField p (sortFields t) = p :: t
    rw [ih ht]
    cases t with
    | nil => rfl
    | cons q t2 =>
      simp only [fieldsSortedB, Bool.and_eq_true] at h
      simp [insField, h.1]

theorem canon_eq_self (v : JValue) : isCanonical v = true → canon v = v := by
  refine canon.induct (fun v => isCanonical v = true → canon v = v)
    (fun fs => fieldsSortedB fs = true → fieldsCanonical fs = true → canonFields fs = fs)
    (fun l => allCanonical l = true → canonList l = l)
    ?_ ?_ ?_ ?_ ?_ ?_ ?_ ?_ ?_ ?_ v
  · intro _
    rfl
  · intro b _
    rfl
  · intro n _
    rfl
  · intro s _
    rfl
  · intro items ih h
    have : allCanonical items = true := by simpa [isCanonical] using h
    simp [canon, ih this]
  · intro fields ih h
    have h2 : fieldsSortedB fields = true ∧ fieldsCanonical fields = true := by
      simpa [isCanonical, Bool.and_eq_true] using h
    simp [canon, ih h2.1 h2.2, sortFields_sorted_id fields h2.1]
  · intro _
    rfl
  · intro v t ihv iht h
    simp only [allCanonical, Bool.and_eq_true] at h
    simp [canonList, ihv h.1, iht h.2]
  · intro _ _
    rfl
  · intro k v t ihv iht hs hc
    simp only [fieldsCanonical, Bool.and_eq_true] at hc
    simp [canonFields, ihv hc.1, iht (fieldsSortedB_tail (k, v) t hs) hc.2]

theorem jsonSerialize_eq_serVal (v : JValue) (hc : isCanonical v = true) :
    jsonSerialize v = serVal v := by
  simp [jsonSerialize, canon_eq_self v hc]

theorem hexDigit_lt (v : Nat) : hexDigit v < 256 ∨ 16 ≤ v := by
  by_cases h : v < 16
  · left
    simp [hexDigit]
    split <;> omega
  · right
    omega

theorem escapeChar_bytes_lt (c : Char) : ∀ b ∈ escapeChar c, b < 256 := by
  intro b hb
  have hlt := char_toNat_lt c
  unfold escapeChar at hb
  split at hb
  · simp at hb
    omega
  · split at hb
    · simp at hb
      omega
    · split at hb
      · rename_i hctl
        simp at hb
        have h1 : hexDigit (c.toNat / 16) < 256 := by
          simp [hexDigit]
          split <;> omega
        have h2 : hexDigit (c.toNat % 16) < 256 := by
          simp [hexDigit]
          split <;> omega
        rcases hb with h | h | h | h | h | h <;> omega
      · unfold utf8Char at hb
        split at hb
        · simp at hb
          omega
        · split at hb
          · simp at hb
            rcases hb with h | h <;> omega
          · split at hb
            · simp at hb
              rcases hb with h | h | h <;> omega
            · simp at hb
              rcases hb with h | h | h | h <;> omega

theorem escapeChars_bytes_lt (cs : List Char) : ∀ b ∈ escapeChars cs, b < 256 := by
  induction cs with
  | nil => simp [escapeChars]
  | cons c t ih =>
    intro b hb
    simp only [escapeChars, List.mem_append] at hb
    rcases hb with h | h
    · exact escapeChar_bytes_lt c b h
    · exact ih b h

theorem intDigits_bytes_lt (k : Int) : ∀ b ∈ intDigits k, b < 256 := by
  intro b hb
  cases k with
  | ofNat n =>
    have := natDigits_mem n b hb
    omega
  | negSucc m =>
    simp only [intDigits, List.mem_cons] at hb
    rcases hb with h | h
    · omega
    · have := natDigits_mem (m + 1) b h
      omega

theorem serVal_bytes_lt (v : JValue) : ∀ b ∈ serVal v, b < 256 := by
  refine serVal.induct (fun v => ∀ b ∈ serVal v, b < 256)
    (fun fs => ∀ b ∈ serFields fs, b < 256)
    (fun l => ∀ b ∈ serElems l, b < 256)
    ?_ ?_ ?_ ?_ ?_ ?_ ?_ ?_ ?_ ?_ ?_ ?_ ?_ v
  · simp [serVal]
  · simp [serVal]
  · simp [serVal]
  · intro k
    exact intDigits_bytes_lt k
  · intro s b hb
    simp only [serVal, serString, List.mem_cons, List.mem_append] at hb
    rcases hb with h | h | h
    · omega
    · exact escapeChars_bytes_lt s.data b h
    · simp at h
      omega
  · intro items ih b hb
    simp only [serVal, List.mem_cons, List.mem_append] at hb
    rcases hb with h | h | h
    · omega
    · exact ih b h
    · simp at h
      omega
  · intro fields ih b hb
    simp only [serVal, List.mem_cons, List.mem_append] at hb
    rcases hb with h | h | h
    · omega
    · exact ih b h
    · simp at h
      omega
  · simp [serElems]
  · intro v ih
    exact ih
  · intro v t _ ihv iht b hb
    simp only [serElems, List.mem_append, List.mem_cons] at hb
    rcases hb with h | h | h
    · exact ihv b h
    · omega
    · exact iht b h
  · simp [serFields]
  · intro k v ihv b hb
    simp only [serFields, serString, List.mem_append, List.mem_cons] at hb
    rcases hb with (h | h | h) | h | h
    · omega
    · exact escapeChars_bytes_lt k.data b h
    · simp at h
      omega
    · omega
    · exact ihv b h
  · intro k v t _ ihv iht b hb
    simp only [serFields, serString, List.mem_append, List.mem_cons] at hb
    rcases hb with ((h | h | h) | h | h) | h | h
    · omega
    · exact escapeChars_bytes_lt k.data b h
    · simp at h
      omega
    · omega
    · exact ihv b h
    · omega
    · exact iht b h

theorem jsonUnmarshal_serVal (v : JValue) (hc : isCanonical v = true) :
    jsonUnmarshal (serVal v) = some v := by
  unfold jsonUnmarshal
  have h := (parse_ser_main ((serVal v).length + 1)).1 v [] hc (by omega) rfl
  rw [List.append_nil] at h
  rw [h]
  simp [skipWs]

theorem jsonUnmarshalObj_serObj (fs : List (String × JValue))
    (hc : isCanonical (.obj fs) = true) :
    jsonUnmarshalObj (serVal (.obj fs)) = some fs := by
  simp [jsonUnmarshalObj, jsonUnmarshal_serVal _ hc]

theorem strMk_cons_ne_empty (c : Char) (l : List Char) : String.mk (c :: l) ≠ "" := by
  intro h
  have hd := congrArg String.data h
  simp at hd

theorem b64encodeStr_serVal_ne_empty (v : JValue) : b64encodeStr (serVal v) ≠ "" := by
  obtain ⟨b, t, hb, _⟩ := serVal_head v
  unfold b64encodeStr codesToStr
  rw [hb]
  cases t with
  | nil =>
    simp only [b64encodeCodes, List.map_cons]
    exact strMk_cons_ne_empty _ _
  | cons c t2 =>
    cases t2 with
    | nil =>
      simp only [b64encodeCodes, List.map_cons]
      exact strMk_cons_ne_empty _ _
    | cons d t3 =>
      simp only [b64encodeCodes, List.map_cons]
      exact strMk_cons_ne_empty _ _

theorem decodePaymentHeader_round (fs : List (String × JValue))
    (hc : isCanonical (.obj fs) = true) :
    decodePaymentHeader (b64encodeStr (serVal (.obj fs))) = some fs := by
  unfold decodePaymentHeader
  rw [if_neg (b64encodeStr_serVal_ne_empty (.obj fs))]
  rw [b64_str_round _ (serVal_bytes_lt (.obj fs))]
  exact jsonUnmarshalObj_serObj fs hc

/-! ## Claim C1: deterministic tool naming -/

theorem sha1Bytes_len (msg : List Nat) : (sha1Bytes msg).length = 20 := by
  simp [sha1Bytes, be32]

theorem hexStr_take8 (bs : List Nat) (h : 4 ≤ bs.length) :
    String.mk ((hexStr bs).data.take 8) = hexStr (bs.take 4) := by
  rcases bs with _ | ⟨a, bs⟩
  · simp at h
  rcases bs with _ | ⟨b, bs⟩
  · simp at h
  rcases bs with _ | ⟨c, bs⟩
  · simp at h
  rcases bs with _ | ⟨d, t⟩
  · simp at h
  simp [hexStr, hexCodes, codesToStr]

theorem sanitizeChar_eq (c : Char) :
    sanitizeChar c =
      (if (97 ≤ c.toNat ∧ c.toNat ≤ 122) ∨ (48 ≤ c.toNat ∧ c.toNat ≤ 57) then c
       else if 65 ≤ c.toNat ∧ c.toNat ≤ 90 then Char.ofNat (c.toNat + 32)
       else Char.ofNat 95) := by
  by_cases hl : 97 ≤ c.toNat ∧ c.toNat ≤ 122
  · have hu : ¬(65 ≤ c.toNat ∧ c.toNat ≤ 90) := by omega
    simp [sanitizeChar, hl, hu]
  · by_cases hu : 65 ≤ c.toNat ∧ c.toNat ≤ 90
    · have hd : ¬(48 ≤ c.toNat ∧ c.toNat ≤ 57) := by omega
      simp [sanitizeChar, hl, hu, hd]
    · by_cases hd : 48 ≤ c.toNat ∧ c.toNat ≤ 57
      · simp [sanitizeChar, hl, hu, hd]
      · simp [sanitizeChar, hl, hu, hd]

theorem sanitize_eq (s : String) : sanitizeToolName s = sanitizeSpecC1 s := by
  unfold sanitizeToolName sanitizeSpecC1
  rw [show s.data.map sanitizeChar =
      s.data.map (fun c =>
        if (97 ≤ c.toNat ∧ c.toNat ≤ 122) ∨ (48 ≤ c.toNat ∧ c.toNat ≤ 57) then c
        else if 65 ≤ c.toNat ∧ c.toNat ≤ 90 then Char.ofNat (c.toNat + 32)
        else Char.ofNat 95) from List.map_congr_left (fun c _ => sanitizeChar_eq c)]

/-- C1: the tool name derived by the engine is a pure function of the HTTP
method and resource URL and has exactly the claimed shape: the `x402_` tag,
the sanitized lower-cased method plus underscore when the method is
non-empty, the sanitized URL, and the first eight hex characters of the
hash of `method ++ colon ++ url`; identical inputs give identical names. -/
theorem toolNameFromResource_matches_claim : ∀ m u : String,
    toolNameFromResource u m = toolNameSpecC1 m u ∧
    ∀ m2 u2, m = m2 → u = u2 → toolNameFromResource u m = toolNameFromResource u2 m2 := by
  intro m u
  constructor
  · unfold toolNameFromResource toolNameSpecC1
    have hlen : 4 ≤ (sha1Bytes (utf8Bytes (m ++ ":" ++ u))).length := by
      rw [sha1Bytes_len]
      omega
    rw [hexStr_take8 _ hlen]
    simp only [sanitize_eq]
  · intro m2 u2 hm hu
    subst hm
    subst hu
    rfl

theorem toolNameFromResource_matches_claim_witness :
    toolNameFromResource "http://localhost:8080/weather" "GET" =
      toolNameSpecC1 "GET" "http://localhost:8080/weather" ∧
    toolNameFromResource "http://localhost:8080/weather" "GET" =
      toolNameFromResource "http://localhost:8080/weather" "GET" :=
  ⟨(toolNameFromResource_matches_claim "GET" "http://localhost:8080/weather").1,
   (toolNameFromResource_matches_claim "GET" "http://localhost:8080/weather").2
     "GET" "http://localhost:8080/weather" rfl rfl⟩

/-! ## Claim C2: version-sensitive payment header encoding -/

theorem detectVersion_eq (payment : JValue) :
    detectVersion payment = if hasEnvelope payment then some 2 else none := by
  cases payment <;> simp [detectVersion, hasEnvelope]

/-- C2: the transport header is selected by version with structural
detection first: a credential with the `accepted`+`resource` envelope
encodes under `PAYMENT-SIGNATURE` (version two); without the envelope an
explicit numeric `x402Version` of one encodes under `X-PAYMENT`; the value
is always the standard base64 encoding of the canonical JSON bytes; and
encoding fails exactly when neither the envelope nor a numeric explicit
field determines the version. -/
theorem encodePaymentHeader_version_selection : ∀ payment : JValue,
    (hasEnvelope payment = true →
      encodePaymentHeader payment =
        some { name := "PAYMENT-SIGNATURE", value := b64encodeStr (jsonSerialize payment),
               version := 2 }) ∧
    (hasEnvelope payment = false → extractX402Version payment = some (.num 1) →
      encodePaymentHeader payment =
        some { name := "X-PAYMENT", value := b64encodeStr (jsonSerialize payment),
               version := 1 }) ∧
    (encodePaymentHeader payment = none ↔
      hasEnvelope payment = false ∧
        normalizeX402Version (extractX402Version payment) = none) := by
  intro payment
  have hdv := detectVersion_eq payment
  refine ⟨?_, ?_, ?_⟩
  · intro h
    simp [encodePaymentHeader, hdv, h, buildPaymentHeader]
  · intro h hx
    simp [encodePaymentHeader, hdv, h, hx, normalizeX402Version, buildPaymentHeader]
  · cases he : hasEnvelope payment with
    | true => simp [encodePaymentHeader, hdv, he]
    | false =>
      cases hn : normalizeX402Version (extractX402Version payment) with
      | none => simp [encodePaymentHeader, hdv, he, hn]
      | some version => simp [encodePaymentHeader, hdv, he, hn]

theorem encodePaymentHeader_version_selection_witness :
    (hasEnvelope v2payEx = true ∧
      encodePaymentHeader v2payEx =
        some { name := "PAYMENT-SIGNATURE", value := b64encodeStr (jsonSerialize v2payEx),
               version := 2 }) ∧
    (hasEnvelope v1payEx = false ∧ extractX402Version v1payEx = some (.num 1) ∧
      encodePaymentHeader v1payEx =
        some { name := "X-PAYMENT", value := b64encodeStr (jsonSerialize v1payEx),
               version := 1 }) :=
  ⟨⟨rfl, (encodePaymentHeader_version_selection v2payEx).1 rfl⟩,
   ⟨rfl, rfl, (encodePaymentHeader_version_selection v1payEx).2.1 rfl rfl⟩⟩

/-! ## Claim C3: HTTP response translation -/

/-- C3: when a payment-required envelope is decodable (header first, else
the 402 body) the result is error-flagged with the envelope as its
structured content, taking priority over normal body interpretation;
otherwise the result renders the status, headers and body text, is
error-flagged exactly for status at least 400, and a decodable settlement
envelope is attached to the result metadata. -/
theorem httpResponseToMCPResult_translation : ∀ resp : HTTPResponse,
    (∀ env, decodePaymentRequired resp resp.body = some env →
      (httpResponseToMCPResult resp).isError = true ∧
      (httpResponseToMCPResult resp).structuredContent = some (.obj env)) ∧
    (decodePaymentRequired resp resp.body = none →
      (httpResponseToMCPResult resp).content =
        .obj [("body", .str resp.body), ("headers", headersToJValue resp.headers),
              ("status", .num resp.statusCode)] ∧
      ((httpResponseToMCPResult resp).isError = true ↔ 400 ≤ resp.statusCode) ∧
      (∀ senv, decodePaymentResponse resp = some senv →
        (httpResponseToMCPResult resp).meta =
          some [("x402/payment-response", .obj senv)])) := by
  intro resp
  constructor
  · intro env h
    simp [httpResponseToMCPResult, h]
  · intro h
    refine ⟨?_, ?_, ?_⟩
    · simp [httpResponseToMCPResult, h]
    · simp [httpResponseToMCPResult, h]
    · intro senv hs
      simp [httpResponseToMCPResult, h, hs]

theorem httpResponseToMCPResult_translation_witness :
    ((httpResponseToMCPResult respC3Ex).isError = true ∧
      (httpResponseToMCPResult respC3Ex).structuredContent =
        some (.obj [("a", .num 1)])) ∧
    ((httpResponseToMCPResult respC3Ex2).isError = true ↔ 400 ≤ respC3Ex2.statusCode) ∧
    (httpResponseToMCPResult respC3Ex2).meta =
      some [("x402/payment-response", .obj [("ok", .bool true)])] :=
  ⟨(httpResponseToMCPResult_translation respC3Ex).1 [("a", .num 1)] rfl,
   ((httpResponseToMCPResult_translation respC3Ex2).2 rfl).2.1,
   ((httpResponseToMCPResult_translation respC3Ex2).2 rfl).2.2 [("ok", .bool true)] rfl⟩

/-! ## Claim C4: the 402-body decode path -/

/-- C4 counterexample: a 402 body whose `accepts` field is explicitly null
still decodes to an envelope, although the claim requires a non-null
`accepts` and absence otherwise. -/
theorem decodePaymentRequired_null_accepts_counterexample :
    decodePaymentHeader (headerGet respC4Ex.headers "PAYMENT-REQUIRED") = none ∧
    decodePaymentRequired respC4Ex respC4Ex.body =
      some [("x402Version", .num 1), ("accepts", .null)] ∧
    jlookup [("x402Version", JValue.num 1), ("accepts", JValue.null)] "accepts" =
      some .null :=
  ⟨rfl, rfl, rfl⟩

/-- C4 (amended): without a decodable `PAYMENT-REQUIRED` header, an
envelope is returned exactly when the status is 402, the body is non-empty
and parses as a JSON object, the version resolves to exactly one
(structurally, or via an explicit numeric `x402Version` of one when
structural detection fails), and the parsed body contains an `accepts`
field, which may be null; the returned envelope is the parsed body. -/
theorem decodePaymentRequired_402_body_amended : ∀ (resp : HTTPResponse) (body : String),
    decodePaymentHeader (headerGet resp.headers "PAYMENT-REQUIRED") = none →
    (((decodePaymentRequired resp body).isSome = true) ↔
      (resp.statusCode = 402 ∧ body ≠ "" ∧
        ∃ fs, jsonUnmarshalObj (utf8Bytes body) = some fs ∧
          versionResolvesTo1 fs = true ∧ containsKey fs "accepts" = true)) ∧
    (∀ fs, resp.statusCode = 402 → body ≠ "" →
      jsonUnmarshalObj (utf8Bytes body) = some fs →
      versionResolvesTo1 fs = true → containsKey fs "accepts" = true →
      decodePaymentRequired resp body = some fs) := by
  intro resp body hhdr
  by_cases hsb : resp.statusCode ≠ 402 ∨ body = ""
  · constructor
    · simp only [decodePaymentRequired, hhdr, if_pos hsb]
      simp
      intro h402 hbody
      rcases hsb with h | h
      · exact absurd h402 h
      · exact absurd h hbody
    · intro fs h402 hbody
      rcases hsb with h | h
      · exact absurd h402 h
      · exact absurd h hbody
  · have hsb2 : resp.statusCode = 402 ∧ body ≠ "" := by
      push_neg at hsb
      exact hsb
    cases hju : jsonUnmarshalObj (utf8Bytes body) with
    | none =>
      constructor
      · simp only [decodePaymentRequired, hhdr, if_neg hsb, hju]
        simp
      · intro fs _ _ hju2
        exact absurd hju2 (by simp)
    | some decoded =>
      have hvo : (match detectVersion (.obj decoded) with
          | some version => version == 1
          | none =>
            match normalizeX402Version (jlookup decoded "x402Version") with
            | some version => version == 1
            | none => false) = versionResolvesTo1 decoded := rfl
      have hdec : decodePaymentRequired resp body =
          (if versionResolvesTo1 decoded = true then
            (if containsKey decoded "accepts" = true then some decoded else none)
          else none) := by
        simp only [decodePaymentRequired, hhdr, if_neg hsb, hju, hvo]
      constructor
      · rw [hdec]
        constructor
        · intro hsome
          by_cases hv : versionResolvesTo1 decoded = true
          · by_cases hck : containsKey decoded "accepts" = true
            · exact ⟨hsb2.1, hsb2.2, decoded, rfl, hv, hck⟩
            · rw [if_pos hv, if_neg hck] at hsome
              simp at hsome
          · rw [if_neg hv] at hsome
            simp at hsome
        · rintro ⟨_, _, fs, hfs, hv, hck⟩
          have hde : decoded = fs := by injection hfs
          subst hde
          rw [if_pos hv, if_pos hck]
          simp
      · intro fs h402 hbody hju2 hv hck
        have hde : decoded = fs := by injection hju2
        subst hde
        rw [hdec, if_pos hv, if_pos hck]

theorem decodePaymentRequired_402_body_amended_witness :
    decodePaymentRequired respC4WEx respC4WEx.body =
      some [("accepts", .arr []), ("x402Version", .num 1)] :=
  (decodePaymentRequired_402_body_amended respC4WEx respC4WEx.body rfl).2
    [("accepts", .arr []), ("x402Version", .num 1)] rfl (by decide) rfl rfl rfl

/-! ## Claim C5: frame conditions of payment-header injection -/

theorem jlookup_setKey_ne (fs : List (String × JValue)) (k k2 : String) (v : JValue)
    (h : k2 ≠ k) : jlookup (setKey fs k v) k2 = jlookup fs k2 := by
  have hk : (k == k2) = false := beq_eq_false_iff_ne.mpr (Ne.symm h)
  induction fs with
  | nil => simp [setKey, jlookup, hk]
  | cons p t ih =>
    by_cases hp : (p.1 == k) = true
    · have hp2 : p.1 = k := by simpa using hp
      have hpk : (p.1 == k2) = false := by rw [hp2]; exact hk
      simp only [setKey, hp, if_true]
      cases hjt : jlookup t k2 with
      | some w => simp [jlookup, hjt]
      | none => simp [jlookup, hjt, hk, hpk]
    · simp only [setKey, hp, if_false, Bool.false_eq_true]
      cases hjt : jlookup (setKey t k v) k2 with
      | some w => simp [jlookup, hjt, ih, jlookup, ← ih]
      | none => simp [jlookup, hjt, ← ih]

theorem jlookup_append_one (fs : List (String × JValue)) (k k2 : String) (v : JValue)
    (h : k2 ≠ k) : jlookup (fs ++ [(k, v)]) k2 = jlookup fs k2 := by
  have hk : (k == k2) = false := beq_eq_false_iff_ne.mpr (Ne.symm h)
  induction fs with
  | nil => simp [jlookup, hk]
  | cons p t ih => simp [jlookup, ih]

theorem mergeHeaders_inv (ps res : List (String × JValue)) (n v : String)
    (h : mergeHeaders ps n v = .ok res) :
    (∀ k, k ≠ "headers" → jlookup res k = jlookup ps k) ∧
    ((∃ hs, jlookup ps "headers" = some (.obj hs) ∧
        res = setKey ps "headers"
          (.obj (if containsKey hs n then hs else hs ++ [(n, .str v)]))) ∨
     (jlookup ps "headers" = none ∧ res = ps ++ [("headers", .obj [(n, .str v)])])) := by
  unfold mergeHeaders at h
  cases hh : jlookup ps "headers" with
  | none =>
    rw [hh] at h
    have hres : res = ps ++ [("headers", .obj [(n, .str v)])] := by
      injection h with h2
      exact h2.symm
    subst hres
    exact ⟨fun k hk => jlookup_append_one ps "headers" k _ hk, Or.inr ⟨rfl, rfl⟩⟩
  | some w =>
    rw [hh] at h
    cases w with
    | obj hs =>
      have hres : res = setKey ps "headers"
          (.obj (if containsKey hs n then hs else hs ++ [(n, .str v)])) := by
        injection h with h2
        exact h2.symm
      subst hres
      exact ⟨fun k hk => jlookup_setKey_ne ps "headers" k _ hk, Or.inl ⟨hs, rfl, rfl⟩⟩
    | null => exact absurd h (by simp)
    | bool b => exact absurd h (by simp)
    | num m => exact absurd h (by simp)
    | str s => exact absurd h (by simp)
    | arr l => exact absurd h (by simp)

/-- C5: injection never overwrites a caller-supplied header: on success the
`headers` object either already contained the computed header name and is
kept unchanged, or gains exactly the payment header; every other parameter
entry is preserved; absent `headers` are created with only the payment
header; and injection fails when `headers` exists but is not an object, or
when a version-two-or-higher credential lacks a `resource` or `accepted`
object. -/
theorem injectPaymentSignature_no_overwrite :
    ∀ (ps : List (String × JValue)) (payment : JValue),
    (∀ res, injectPaymentSignature (some ps) payment = .ok res →
      ∃ hdr, encodePaymentHeader payment = some hdr ∧
        (∀ k, k ≠ "headers" → jlookup res k = jlookup ps k) ∧
        ((∃ hs, jlookup ps "headers" = some (.obj hs) ∧
            res = setKey ps "headers"
              (.obj (if containsKey hs hdr.name then hs
                     else hs ++ [(hdr.name, .str hdr.value)]))) ∨
         (jlookup ps "headers" = none ∧
            res = ps ++ [("headers", .obj [(hdr.name, .str hdr.value)])]))) ∧
    (∀ v, jlookup ps "headers" = some v → (∀ hs, v ≠ .obj hs) →
      ∃ e, injectPaymentSignature (some ps) payment = .error e) ∧
    (∀ pm hdr, payment = .obj pm → encodePaymentHeader payment = some hdr →
      2 ≤ hdr.version →
      (asObj (jlookup pm "resource") = none ∨ asObj (jlookup pm "accepted") = none) →
      ∃ e, injectPaymentSignature (some ps) payment = .error e) := by
  intro ps payment
  refine ⟨?_, ?_, ?_⟩
  · intro res hok
    cases payment with
    | obj pm =>
      simp only [injectPaymentSignature] at hok
      by_cases hpm : payloadMissing (jlookup pm "payload") = true
      · rw [if_pos hpm] at hok
        exact absurd hok (by simp)
      · rw [if_neg hpm] at hok
        cases henc : encodePaymentHeader (.obj pm) with
        | none =>
          simp only [henc] at hok
          exact absurd hok (by simp)
        | some hdr =>
          simp only [henc] at hok
          refine ⟨hdr, rfl, ?_⟩
          by_cases hv2 : hdr.version ≥ 2
          · simp only [if_pos hv2] at hok
            cases hro : asObj (jlookup pm "resource") with
            | none =>
              simp only [hro] at hok
              exact absurd hok (by simp)
            | some rm =>
              simp only [hro] at hok
              cases hao : asObj (jlookup pm "accepted") with
              | none =>
                simp only [hao] at hok
                exact absurd hok (by simp)
              | some am =>
                simp only [hao, Option.getD_some] at hok
                exact (mergeHeaders_inv ps res hdr.name hdr.value hok).imp id id
          · simp only [if_neg hv2, Option.getD_some] at hok
            exact (mergeHeaders_inv ps res hdr.name hdr.value hok).imp id id
    | null => exact absurd hok (by simp [injectPaymentSignature])
    | bool b => exact absurd hok (by simp [injectPaymentSignature])
    | num m => exact absurd hok (by simp [injectPaymentSignature])
    | str s => exact absurd hok (by simp [injectPaymentSignature])
    | arr l => exact absurd hok (by simp [injectPaymentSignature])
  · intro v hv hnotobj
    cases payment with
    | obj pm =>
      simp only [injectPaymentSignature]
      by_cases hpm : payloadMissing (jlookup pm "payload") = true
      · exact ⟨.missingPayload, by rw [if_pos hpm]⟩
      · rw [if_neg hpm]
        cases henc : encodePaymentHeader (.obj pm) with
        | none => exact ⟨.encodeFailed, rfl⟩
        | some hdr =>
          have hmh : mergeHeaders ps hdr.name hdr.value =
              .error (.headersNotObject hdr.name) := by
            unfold mergeHeaders
            rw [hv]
            cases v with
            | obj hs => exact absurd rfl (hnotobj hs)
            | null => rfl
            | bool b => rfl
            | num m => rfl
            | str s => rfl
            | arr l => rfl
          by_cases hv2 : hdr.version ≥ 2
          · simp only [if_pos hv2]
            cases hro : asObj (jlookup pm "resource") with
            | none => exact ⟨.missingResource, rfl⟩
            | some rm =>
              cases hao : asObj (jlookup pm "accepted") with
              | none => exact ⟨.missingAccepted, rfl⟩
              | some am =>
                exact ⟨.headersNotObject hdr.name, by simp [Option.getD_some, hmh]⟩
          · simp only [if_neg hv2]
            exact ⟨.headersNotObject hdr.name, by simp [Option.getD_some, hmh]⟩
    | null => exact ⟨.notObject, rfl⟩
    | bool b => exact ⟨.notObject, rfl⟩
    | num m => exact ⟨.notObject, rfl⟩
    | str s => exact ⟨.notObject, rfl⟩
    | arr l => exact ⟨.notObject, rfl⟩
  · intro pm hdr hpay henc hver hmiss
    subst hpay
    simp only [injectPaymentSignature]
    by_cases hpm : payloadMissing (jlookup pm "payload") = true
    · exact ⟨.missingPayload, by rw [if_pos hpm]⟩
    · rw [if_neg hpm, henc]
      have hv2 : hdr.version ≥ 2 := hver
      simp only [if_pos hv2]
      rcases hmiss with hm | hm
      · rw [hm]
        exact ⟨.missingResource, rfl⟩
      · cases hro : asObj (jlookup pm "resource") with
        | none => exact ⟨.missingResource, rfl⟩
        | some rm =>
          rw [hm]
          exact ⟨.missingAccepted, rfl⟩

theorem injectPaymentSignature_no_overwrite_witness :
    injectPaymentSignature (some psC5Ex) v1payEx = Except.ok psC5Ex ∧
    jlookup psC5Ex "query" = jlookup psC5Ex "query" ∧
    (∃ e, injectPaymentSignature (some [("headers", JValue.str "oops")]) v1payEx =
      Except.error e) := by
  refine ⟨by rfl, ?_, ?_⟩
  · obtain ⟨hdr, _, hframe, _⟩ :=
      (injectPaymentSignature_no_overwrite psC5Ex v1payEx).1 psC5Ex (by rfl)
    exact (hframe "query" (by decide)).trans (hframe "query" (by decide)).symm
  · exact (injectPaymentSignature_no_overwrite [("headers", JValue.str "oops")] v1payEx).2.1
      (JValue.str "oops") (by rfl) (fun hs h => by simp at h)

/-! ## Claim C6: pagination -/

/-- C7: a canonical version-two credential that encodes successfully
round-trips: base64-decoding the header value returns exactly the
credential's canonical JSON bytes, and decoding the header value returns
the credential object itself. -/
theorem paymentHeader_round_trip :
    ∀ (payment : JValue) (hdr : PaymentHeader), isCanonical payment = true →
    encodePaymentHeader payment = some hdr → 2 ≤ hdr.version →
    b64decodeStd hdr.value = some (jsonSerialize payment) ∧
    ∃ fs, payment = .obj fs ∧ decodePaymentHeader hdr.value = some fs := by
  intro payment hdr hc henc _
  have hobj : ∃ fs, payment = .obj fs := by
    cases payment with
    | obj fs => exact ⟨fs, rfl⟩
    | null => simp [encodePaymentHeader, detectVersion, extractX402Version,
        normalizeX402Version] at henc
    | bool b => simp [encodePaymentHeader, detectVersion, extractX402Version,
        normalizeX402Version] at henc
    | num n => simp [encodePaymentHeader, detectVersion, extractX402Version,
        normalizeX402Version] at henc
    | str s => simp [encodePaymentHeader, detectVersion, extractX402Version,
        normalizeX402Version] at henc
    | arr l => simp [encodePaymentHeader, detectVersion, extractX402Version,
        normalizeX402Version] at henc
  obtain ⟨fs, hfs⟩ := hobj
  subst hfs
  have hval : hdr.value = b64encodeStr (jsonSerialize (.obj fs)) := by
    unfold encodePaymentHeader at henc
    cases hdv : detectVersion (.obj fs) with
    | some version =>
      rw [hdv] at henc
      injection henc with h2
      rw [← h2]
      rfl
    | none =>
      rw [hdv] at henc
      cases hn : normalizeX402Version (extractX402Version (.obj fs)) with
      | none =>
        rw [hn] at henc
        exact absurd henc (by simp)
      | some version =>
        rw [hn] at henc
        injection henc with h2
        rw [← h2]
        rfl
  have hser : jsonSerialize (.obj fs) = serVal (.obj fs) := jsonSerialize_eq_serVal _ hc
  constructor
  · rw [hval, hser]
    exact b64_str_round _ (serVal_bytes_lt (.obj fs))
  · refine ⟨fs, rfl, ?_⟩
    rw [hval, hser]
    exact decodePaymentHeader_round fs hc

theorem paymentHeader_round_trip_witness :
    b64decodeStd (b64encodeStr (jsonSerialize v2payEx)) = some (jsonSerialize v2payEx) ∧
    ∃ fs, v2payEx = .obj fs ∧
      decodePaymentHeader (b64encodeStr (jsonSerialize v2payEx)) = some fs := by
  have h := paymentHeader_round_trip v2payEx
    { name := "PAYMENT-SIGNATURE", value := b64encodeStr (jsonSerialize v2payEx),
      version := 2 } rfl (by rfl) (by norm_num)
  exact h

/-! ## Claim C8: description preference order -/

/-- Helper: the first component of the accepts loop is the decoded
description of the first requirement carrying a non-empty description or an
input descriptor (and empty when no requirement carries either). -/
theorem extractAcceptsLoop_find (reqs : List X402PaymentRequirements) :
    (extractAcceptsLoop reqs).1 =
      (match reqs.find? carrierPred with
       | some q => reqDecodedDesc q
       | none => "") := by
  induction reqs with
  | nil => rfl
  | cons q t ih =>
    by_cases hc : carrierPred q = true
    · have hp : reqDecodedDesc q ≠ "" ∨ (reqDecodedInput q).isSome = true := by
        simpa [carrierPred] using hc
      rw [List.find?_cons_of_pos _ hc]
      simp only [extractAcceptsLoop]
      rw [if_pos hp]
    · have hp : ¬(reqDecodedDesc q ≠ "" ∨ (reqDecodedInput q).isSome = true) := by
        intro h
        rcases h with h | h
        · simp [carrierPred, h] at hc
        · simp [carrierPred, h] at hc
      rw [List.find?_cons_of_neg _ hc]
      simp only [extractAcceptsLoop]
      rw [if_neg hp]
      exact ih

/-- C8 counterexample: the claimed preference order fails.  `rC8Ex` is
tool-eligible and its accepts list carries the non-empty description
`"Better"` in its second entry, yet the synthesized description is not
built from `"Better"`: the loop stops at the first entry, which carries an
input descriptor but an empty description. -/
theorem resourceToTool_description_counterexample :
    goToLower rC8Ex.type = "http" ∧
    firstNonEmptyDesc rC8Ex = some "Better" ∧
    (resourceToTool rC8Ex).map MCPTool.description ≠
      some (trimSpace "Better" ++ " Use proxy_tool_call with payment to execute.") := by
  refine ⟨rfl, rfl, ?_⟩
  decide

/-- C8 (amended): for every tool-eligible resource the synthesized tool's
description is the decoded description of the first accepts entry carrying
a non-empty description or an input descriptor when that description is
non-empty; otherwise the non-empty metadata description; otherwise the
generated default; always trimmed and with the fixed proxy-call suffix
appended. -/
theorem resourceToTool_description_amended (r : X402DiscoveryResource)
    (h : goToLower r.type = "http") :
    (resourceToTool r).map MCPTool.description = some (descSpecC8 r) := by
  obtain ⟨acc, lu, res, ty, xv, md⟩ := r
  cases acc with
  | none =>
    cases md with
    | none =>
      simp [resourceToTool, h, descSpecC8, chooseDescSpec, acceptsCarrier, fallbackDesc,
        metaDesc, extractAcceptsMetadata]
    | some m =>
      cases hd : jlookup m "description" with
      | none =>
        simp [resourceToTool, h, descSpecC8, chooseDescSpec, acceptsCarrier, fallbackDesc,
          metaDesc, extractAcceptsMetadata, hd]
      | some v =>
        cases v <;>
          simp [resourceToTool, h, descSpecC8, chooseDescSpec, acceptsCarrier, fallbackDesc,
            metaDesc, extractAcceptsMetadata, hd]
  | some reqs =>
    cases hf : reqs.find? carrierPred with
    | none =>
      have hloop : (extractAcceptsLoop reqs).1 = "" := by
        rw [extractAcceptsLoop_find reqs, hf]
      cases md with
      | none =>
        simp [resourceToTool, h, descSpecC8, chooseDescSpec, acceptsCarrier, fallbackDesc,
          metaDesc, extractAcceptsMetadata, hloop, hf]
      | some m =>
        cases hd : jlookup m "description" with
        | none =>
          simp [resourceToTool, h, descSpecC8, chooseDescSpec, acceptsCarrier, fallbackDesc,
            metaDesc, extractAcceptsMetadata, hloop, hf, hd]
        | some v =>
          cases v <;>
            simp [resourceToTool, h, descSpecC8, chooseDescSpec, acceptsCarrier, fallbackDesc,
              metaDesc, extractAcceptsMetadata, hloop, hf, hd]
    | some q =>
      have hloop : (extractAcceptsLoop reqs).1 = reqDecodedDesc q := by
        rw [extractAcceptsLoop_find reqs, hf]
      by_cases hdq : reqDecodedDesc q = ""
      · cases md with
        | none =>
          simp [resourceToTool, h, descSpecC8, chooseDescSpec, acceptsCarrier, fallbackDesc,
            metaDesc, extractAcceptsMetadata, hloop, hf, hdq]
        | some m =>
          cases hd : jlookup m "description" with
          | none =>
            simp [resourceToTool, h, descSpecC8, chooseDescSpec, acceptsCarrier, fallbackDesc,
              metaDesc, extractAcceptsMetadata, hloop, hf, hdq, hd]
          | some v =>
            cases v <;>
              simp [resourceToTool, h, descSpecC8, chooseDescSpec, acceptsCarrier, fallbackDesc,
                metaDesc, extractAcceptsMetadata, hloop, hf, hdq, hd]
      · simp [resourceToTool, h, descSpecC8, chooseDescSpec, acceptsCarrier,
          extractAcceptsMetadata, hloop, hf, hdq]

theorem resourceToTool_description_amended_witness :
    goToLower rC8Ex2.type = "http" ∧
    (resourceToTool rC8Ex2).map MCPTool.description = some (descSpecC8 rC8Ex2) :=
  ⟨rfl, resourceToTool_description_amended rC8Ex2 rfl⟩

/-! ## Claim C9: non-HTTP resources synthesize no tool -/

set_option maxRecDepth 20000 in
/-- C9 counterexample: the resource `rC9Ex` has the type tag `"HTTP"`,
which is not the string `"http"`, yet it synthesizes a tool and is
resolvable through its recomputed proxy tool name: the guard lower-cases
the type tag before comparing. -/
theorem resourceToTool_http_only_counterexample :
    rC9Ex.type ≠ "http" ∧ (resourceToTool rC9Ex).isSome = true ∧
    findResourceForToolName [rC9Ex] (toolNameFromResource "http://x" "") = some rC9Ex := by
  refine ⟨by decide, rfl, ?_⟩
  rfl

/-- C9 (amended): a resource whose lower-cased type tag differs from
`"http"` synthesizes no tool, and every resource resolved through a proxy
tool name has a type tag that lower-cases to `"http"`. -/
theorem resourceToTool_http_only_amended :
    (∀ r : X402DiscoveryResource, goToLower r.type ≠ "http" → resourceToTool r = none) ∧
    (∀ items toolName r, findResourceForToolName items toolName = some r →
      goToLower r.type = "http") := by
  constructor
  · intro r h
    simp only [resourceToTool, if_pos h]
  · intro items
    induction items with
    | nil =>
      intro toolName r hr
      simp [findResourceForToolName] at hr
    | cons r0 t ih =>
      intro toolName r hr
      simp only [findResourceForToolName] at hr
      split at hr
      · exact ih toolName r hr
      · next h0 =>
        split at hr <;> try split at hr
        all_goals try exact ih toolName r hr
        all_goals
          cases hr
          by_contra hne
          rw [show resourceToTool r0 = none from by simp only [resourceToTool, if_pos hne]] at h0
          exact h0 rfl

set_option maxRecDepth 20000 in
theorem resourceToTool_http_only_amended_witness :
    resourceToTool rGrpcEx = none ∧ goToLower rC8Ex2.type = "http" :=
  ⟨resourceToTool_http_only_amended.1 rGrpcEx (by decide),
   resourceToTool_http_only_amended.2 [rC8Ex2] (toolNameFromResource "http://x/weather" "")
     rC8Ex2 rfl⟩

/-! ## Claim C10: payload required regardless of version -/

/-- C10: whatever the credential's protocol version, a payment credential
supplied in the call metadata that is not an object, or whose `payload`
entry is missing or null, makes the injection step fail with an
error-flagged tool result; no version is consulted before these checks. -/
theorem proxyPayment_payload_required (params : Option (List (String × JValue)))
    (payment : JValue) :
    ((∀ fs, payment ≠ .obj fs) → payment ≠ .null →
      proxyToolCallPaymentStep params (some payment) =
        .error { content := .str ("Error: invalid x402 payment metadata: " ++
                   injectErrorText .notObject), isError := true }) ∧
    (∀ fs, payment = .obj fs → payloadMissing (jlookup fs "payload") = true →
      proxyToolCallPaymentStep params (some payment) =
        .error { content := .str ("Error: invalid x402 payment metadata: " ++
                   injectErrorText .missingPayload), isError := true }) := by
  constructor
  · intro hobj hnull
    cases payment with
    | null => exact absurd rfl hnull
    | obj fs => exact absurd rfl (hobj fs)
    | bool b => rfl
    | num n => rfl
    | str s => rfl
    | arr xs => rfl
  · intro fs hfs hpm
    subst hfs
    simp only [proxyToolCallPaymentStep, injectPaymentSignature, if_pos hpm]

theorem proxyPayment_payload_required_witness :
    proxyToolCallPaymentStep none
        (some (.obj [("payload", JValue.null), ("x402Version", .num 1)])) =
      .error { content := .str ("Error: invalid x402 payment metadata: " ++
                 injectErrorText .missingPayload), isError := true } :=
  (proxyPayment_payload_required none _).2 [("payload", JValue.null), ("x402Version", .num 1)]
    rfl (by rfl)
